import Mathlib

/-!
Formal verification of the `tomledit` TOML-editing library.

This file gives a shallow embedding, in Lean 4, of the parts of the library
needed to settle the frozen claims: the `Key` comparison operations and the
`Array`/`Inline` renderers of `parser/ast.go`, the `FindTable`,
`SortKeyValuesByName`, `EnsureKey` and `MoveKey` transforms of the
`transform` package, and a model of the document/entry layer (`Document`,
`Entry`, `Scan`, `First`, `Remove`) whose sources are not part of the
source snapshot and which is therefore modelled from the written
specification.  Go slices become Lean lists, in-place mutation becomes
explicit state passing, and Go errors become `Option`/`Bool` results.
-/

namespace Tomledit

/-! ## Keys (`parser/ast.go`)

A `Key` is a dotted compound name, `type Key []string`. -/

abbrev Key := List String

/-- Executable lexicographic comparison of character sequences.  Go compares
strings byte-wise over their UTF-8 encoding, which orders strings exactly
like code-point-wise comparison; this function is that comparison on the
decoded character list. -/
def charListLt : List Char → List Char → Bool
  | [], [] => false
  | [], _ :: _ => true
  | _ :: _, [] => false
  | c :: cs, d :: ds =>
    if c < d then true
    else if d < c then false
    else charListLt cs ds

/-- Executable string comparison agreeing with the `<` of `String`. -/
def strLt (a b : String) : Bool := charListLt a.data b.data

theorem charListLt_iff_lex :
    ∀ l1 l2 : List Char, charListLt l1 l2 = true ↔ List.Lex (· < ·) l1 l2
  | [], [] => by simp [charListLt]
  | [], d :: ds => by simpa [charListLt] using List.Lex.nil
  | c :: cs, [] => by simp [charListLt]
  | c :: cs, d :: ds => by
    simp only [charListLt]
    rcases lt_trichotomy c d with h | rfl | h
    · simp only [if_pos h, true_iff]
      exact List.Lex.rel h
    · rw [if_neg (lt_irrefl c), if_neg (lt_irrefl c), charListLt_iff_lex cs ds]
      exact List.Lex.cons_iff.symm
    · rw [if_neg (not_lt_of_gt h), if_pos h]
      simp only [Bool.false_eq_true, false_iff]
      intro hl
      cases hl with
      | cons htl => exact absurd h (lt_irrefl _)
      | rel hr => exact absurd hr (lt_asymm h)

theorem strLt_iff {a b : String} : strLt a b = true ↔ a < b := by
  rw [strLt, charListLt_iff_lex, String.lt_iff_toList_lt]
  exact Iff.rfl

theorem strLt_eq_false_iff {a b : String} : strLt a b = false ↔ ¬a < b := by
  rw [← strLt_iff]
  rcases h : strLt a b with _ | _ <;> simp

/-- `Key.IsPrefixOf` from `parser/ast.go`: the Go code first rejects `k`
longer than `k2`, then compares the fragments of `k` pairwise against the
leading fragments of `k2`; the recursion below performs the same scan. -/
def Key.isPrefixOf : Key → Key → Bool
  | [], _ => true
  | _ :: _, [] => false
  | a :: as, b :: bs => a == b && Key.isPrefixOf as bs

/-- `Key.Equals` from `parser/ast.go`:
`k.IsPrefixOf(k2) && len(k) == len(k2)`. -/
def Key.equals (k k2 : Key) : Bool :=
  Key.isPrefixOf k k2 && k.length == k2.length

/-- `Key.Before` from `parser/ast.go`: the Go loop walks both fragment
sequences in lockstep, deciding at the first strictly ordered pair of
fragments, and on exhaustion reports true exactly when `k` ran out while
`k2` did not. -/
def Key.before : Key → Key → Bool
  | [], k2 => !k2.isEmpty
  | _ :: _, [] => false
  | a :: as, b :: bs =>
    if strLt a b then true
    else if strLt b a then false
    else Key.before as bs

theorem Key.isPrefixOf_iff : ∀ k k2 : Key, Key.isPrefixOf k k2 = true ↔ k <+: k2
  | [], k2 => by simp [Key.isPrefixOf]
  | a :: as, [] => by simp [Key.isPrefixOf]
  | a :: as, b :: bs => by
    simp [Key.isPrefixOf, Key.isPrefixOf_iff as bs, List.cons_prefix_cons, and_comm]

theorem Key.equals_iff : ∀ k k2 : Key, Key.equals k k2 = true ↔ k = k2 := by
  intro k k2
  simp only [Key.equals, Bool.and_eq_true, beq_iff_eq, Key.isPrefixOf_iff]
  constructor
  · rintro ⟨hp, hl⟩
    exact List.IsPrefix.eq_of_length hp hl
  · rintro rfl
    exact ⟨List.prefix_refl k, rfl⟩

theorem Key.before_iff_lex : ∀ k k2 : Key, Key.before k k2 = true ↔ List.Lex (· < ·) k k2
  | [], [] => by simp [Key.before]
  | [], b :: bs => by simpa [Key.before] using List.Lex.nil
  | a :: as, [] => by simp [Key.before]
  | a :: as, b :: bs => by
    simp only [Key.before]
    rcases lt_trichotomy a b with h | rfl | h
    · simp only [if_pos (strLt_iff.mpr h), true_iff]
      exact List.Lex.rel h
    · have hf : ¬strLt a a = true := fun hc => absurd (strLt_iff.mp hc) (lt_irrefl a)
      rw [if_neg hf, if_neg hf, Key.before_iff_lex as bs]
      exact List.Lex.cons_iff.symm
    · have h1 : ¬strLt a b = true := fun hc => absurd (strLt_iff.mp hc) (not_lt_of_gt h)
      rw [if_neg h1, if_pos (strLt_iff.mpr h)]
      simp only [Bool.false_eq_true, false_iff]
      intro hl
      cases hl with
      | cons htl => exact absurd h (lt_irrefl _)
      | rel hr => exact absurd hr (lt_asymm h)

theorem Key.before_irrefl (k : Key) : Key.before k k = false := by
  have := Key.before_iff_lex k k
  rcases h : Key.before k k with _ | _
  · rfl
  · exact absurd (this.mp h) (irrefl_of (List.Lex ((· < ·) : String → String → Prop)) k)

theorem Key.before_trans {a b c : Key} (h1 : Key.before a b = true)
    (h2 : Key.before b c = true) : Key.before a c = true := by
  rw [Key.before_iff_lex] at *
  exact IsTrans.trans _ _ _ h1 h2

theorem Key.before_asymm {a b : Key} (h : Key.before a b = true) :
    Key.before b a = false := by
  rcases hb : Key.before b a with _ | _
  · rfl
  · have := Key.before_trans h hb
    rw [Key.before_irrefl] at this
    cases this

theorem Key.before_trichotomy (a b : Key) :
    Key.before a b = true ∨ Key.before b a = true ∨ a = b := by
  rcases trichotomous_of (List.Lex ((· < ·) : String → String → Prop)) a b with h | h | h
  · exact Or.inl ((Key.before_iff_lex a b).mpr h)
  · exact Or.inr (Or.inr h)
  · exact Or.inr (Or.inl ((Key.before_iff_lex b a).mpr h))

theorem Key.not_before_of_eq {a b : Key} (h : a = b) : Key.before a b = false := by
  subst h; exact Key.before_irrefl a

theorem Key.equals_comm (a b : Key) : Key.equals a b = Key.equals b a := by
  rcases h : Key.equals b a with _ | _
  · rcases h2 : Key.equals a b with _ | _
    · rfl
    · rw [← h, (Key.equals_iff b a).mpr ((Key.equals_iff a b).mp h2).symm]
  · exact (Key.equals_iff a b).mpr ((Key.equals_iff b a).mp h).symm

/-- C1: `Equals` is reflexive and symmetric; a prefix of equal length is
equal; `Before` is irreflexive, transitive, and for every pair exactly one
of `A.Before(B)`, `B.Before(A)`, `A.Equals(B)` holds; `Before` agrees with
lexicographic (tuple) comparison of the fragment sequences under the
natural string ordering, and a strict prefix is ordered before its
extension. -/
theorem key_relation_laws (A B C : Key) :
    (Key.equals A A = true)
    ∧ (Key.equals A B = Key.equals B A)
    ∧ (Key.isPrefixOf A B = true → A.length = B.length → Key.equals A B = true)
    ∧ (Key.before A A = false)
    ∧ (Key.before A B = true → Key.before B C = true → Key.before A C = true)
    ∧ ((Key.before A B = true ∧ Key.before B A = false ∧ Key.equals A B = false)
       ∨ (Key.before B A = true ∧ Key.before A B = false ∧ Key.equals A B = false)
       ∨ (Key.equals A B = true ∧ Key.before A B = false ∧ Key.before B A = false))
    ∧ (Key.before A B = true ↔ List.Lex (· < ·) A B)
    ∧ (Key.isPrefixOf A B = true → A.length < B.length → Key.before A B = true) := by
  refine ⟨(Key.equals_iff A A).mpr rfl, Key.equals_comm A B, ?_, Key.before_irrefl A,
    fun h1 h2 => Key.before_trans h1 h2, ?_, Key.before_iff_lex A B, ?_⟩
  · intro hp hl
    exact (Key.equals_iff A B).mpr
      (List.IsPrefix.eq_of_length ((Key.isPrefixOf_iff A B).mp hp) hl)
  · rcases Key.before_trichotomy A B with h | h | h
    · refine Or.inl ⟨h, Key.before_asymm h, ?_⟩
      rcases he : Key.equals A B with _ | _
      · rfl
      · rw [(Key.equals_iff A B).mp he, Key.before_irrefl] at h; cases h
    · refine Or.inr (Or.inl ⟨h, Key.before_asymm h, ?_⟩)
      rcases he : Key.equals A B with _ | _
      · rfl
      · rw [← (Key.equals_iff A B).mp he, Key.before_irrefl] at h; cases h
    · exact Or.inr (Or.inr ⟨(Key.equals_iff A B).mpr h, Key.not_before_of_eq h,
        Key.not_before_of_eq h.symm⟩)
  · intro hp hl
    rw [Key.before_iff_lex]
    obtain ⟨t, rfl⟩ := (Key.isPrefixOf_iff A B).mp hp
    cases t with
    | nil => simp at hl
    | cons x xs =>
      have : List.Lex ((· < ·) : String → String → Prop) [] (x :: xs) := List.Lex.nil
      simpa using List.Lex.append_left (· < ·) this A

/-- Witness for `key_relation_laws` at concrete keys: transitivity through
`["a"] < ["a","b"] < ["b"]` and the strict-prefix conjunct at
`["a"] <+: ["a","b"]`. -/
theorem key_relation_laws_witness :
    Key.before ["a"] ["b"] = true ∧ Key.before ["a"] ["a", "b"] = true := by
  have h := key_relation_laws ["a"] ["a", "b"] ["b"]
  exact ⟨h.2.2.2.2.1 (by decide) (by decide),
    h.2.2.2.2.2.2.2 (by decide) (by decide)⟩

/-! ## The parsed value tree (`parser/ast.go`)

`Datum` is the closed interface implemented by `Token`, `Array` and
`Inline`; `ArrayItem` by `Comments` and `Value`.  A Go `Token` holds a
lexical type plus its source text; we keep the outcome of `Type.IsValue()`
and of `Type.String()` as fields, since the scanner package is consumed
only through those. -/

mutual
inductive Datum where
  | token (isValue : Bool) (typeName : String) (text : String)
  | array (items : List ArrayItem)
  | inline (kvs : List KeyValue)

inductive ArrayItem where
  | comments (lines : List String)
  | value (v : Value)

inductive Value where
  | mk (trailer : String) (x : Datum)

inductive KeyValue where
  | mk (block : List String) (name : Key) (value : Value)
end

def Value.trailer : Value → String
  | .mk t _ => t

def Value.x : Value → Datum
  | .mk _ x => x

def KeyValue.block : KeyValue → List String
  | .mk b _ _ => b

def KeyValue.name : KeyValue → Key
  | .mk _ n _ => n

def KeyValue.value : KeyValue → Value
  | .mk _ _ v => v

/-- A table or array-table section heading (`parser/ast.go`). -/
structure Heading where
  block : List String
  trailer : String
  isArray : Bool
  name : Key

/-- An `Item` of a TOML document: one of `Comments`, `Heading`, `KeyValue`
(`parser/ast.go`). -/
inductive Item where
  | comments (lines : List String)
  | heading (h : Heading)
  | keyValue (kv : KeyValue)

def Item.isKeyValue : Item → Bool
  | .keyValue _ => true
  | _ => false

/-! ## Rendering (`Array.String`, `Inline.String` and friends in
`parser/ast.go`) -/

/-- Modelled from the spec: `scanner.IsWord` (the scanner source is not in
the snapshot); a word is made of word-safe characters: letters, digits,
hyphen, underscore. -/
def isWord (s : String) : Bool := s.data.all fun c => c.isAlphanum || c == '-' || c == '_'

/-- Modelled from the spec: `scanner.Escape` escapes characters that cannot
stand in a double-quoted fragment; quote and backslash are the cases a key
rendering can need. -/
def escapeStr (s : String) : String :=
  ⟨(s.data.map fun c => if c == '"' || c == '\\' then ['\\', c] else [c]).flatten⟩

/-- `Key.String` from `parser/ast.go`: word-safe non-empty fragments are
rendered bare, the rest double-quoted with escaping, joined by dots. -/
def Key.render (k : Key) : String :=
  String.intercalate "."
    (k.map fun word => if isWord word && word != "" then word else "\"" ++ escapeStr word ++ "\"")

mutual
/-- The `String` methods of `Token`, `Array` and `Inline` from
`parser/ast.go`, merged over the `Datum` interface: a value token prints
its text, a non-value token its type name; an empty array prints `[]`,
otherwise the value elements joined by a comma-space separator inside
brackets; an inline table the same inside braces with `k = v` pairs. -/
def renderDatum : Datum → String
  | .token isVal tn tx => if isVal then tx else tn
  | .array its =>
    if its.isEmpty then "[]"
    else "[" ++ String.intercalate ", " (collectVals its) ++ "]"
  | .inline kvs =>
    if kvs.isEmpty then "\x7b\x7d"
    else "\x7b" ++ String.intercalate ", " (renderKVs kvs) ++ "\x7d"

/-- The element loop of `Array.String`: only `Value` elements contribute,
`Comments` elements are skipped. -/
def collectVals : List ArrayItem → List String
  | [] => []
  | .comments _ :: rest => collectVals rest
  | .value v :: rest => renderValue v :: collectVals rest

/-- `Value.String` from `parser/ast.go`: renders the datum only (the
trailing comment is not part of the value rendering). -/
def renderValue : Value → String
  | .mk _ x => renderDatum x

def renderKVs : List KeyValue → List String
  | [] => []
  | kv :: rest => renderKV kv :: renderKVs rest

/-- `KeyValue.String` from `parser/ast.go`: `name = value`. -/
def renderKV : KeyValue → String
  | .mk _ n v => Key.render n ++ " = " ++ renderValue v
end

/-- The `Value` elements of an array, in order. -/
def arrayValues (its : List ArrayItem) : List Value :=
  its.filterMap fun it => match it with
    | .value v => some v
    | .comments _ => none

theorem collectVals_eq : ∀ its : List ArrayItem,
    collectVals its = (arrayValues its).map renderValue
  | [] => rfl
  | .comments _ :: rest => by
    simp [collectVals, arrayValues, List.filterMap_cons, collectVals_eq rest]
  | .value v :: rest => by
    simp [collectVals, arrayValues, List.filterMap_cons, collectVals_eq rest]

theorem renderKVs_eq : ∀ kvs : List KeyValue, renderKVs kvs = kvs.map renderKV
  | [] => rfl
  | kv :: rest => by simp [renderKVs, renderKVs_eq rest]

/-- C9: an array renders as `[` + the renderings of its `Value` elements
joined by the exact separator `", "` + `]`, comments contributing nothing
(so an array of only comments renders `[]`); an inline table renders the
`k = v` pairs the same way inside braces, and `\x7b\x7d` when empty. -/
theorem array_inline_render (its : List ArrayItem) (kvs : List KeyValue) :
    renderDatum (.array its)
      = "[" ++ String.intercalate ", " ((arrayValues its).map renderValue) ++ "]"
    ∧ (arrayValues its = [] → renderDatum (.array its) = "[]")
    ∧ renderDatum (.inline kvs)
      = "\x7b" ++ String.intercalate ", " (kvs.map renderKV) ++ "\x7d"
    ∧ (kvs = [] → renderDatum (.inline kvs) = "\x7b\x7d") := by
  refine ⟨?_, ?_, ?_, ?_⟩
  · cases its with
    | nil => decide
    | cons it rest =>
      rw [renderDatum, if_neg (by simp), collectVals_eq]
  · intro h
    cases its with
    | nil => rfl
    | cons it rest =>
      rw [renderDatum, if_neg (by simp), collectVals_eq, h]
      decide
  · cases kvs with
    | nil => decide
    | cons kv rest =>
      rw [renderDatum, if_neg (by simp), renderKVs_eq]
  · rintro rfl
    rfl

/-- Witness for `array_inline_render`: an array holding only comment
blocks renders as the empty array. -/
theorem array_inline_render_witness :
    renderDatum (.array [.comments ["# a"], .comments ["# b"]]) = "[]" :=
  (array_inline_render [.comments ["# a"], .comments ["# b"]] []).2.1 rfl

/-! ## `SortKeyValuesByName` (`transform/helper.go`)

The Go code records the offsets of the `KeyValue` elements of the item
slice, then runs `sort.Stable` over that subsequence, with `Less`
comparing the recorded names by `Key.Before` and `Swap` exchanging the
contents of two recorded offsets.  Offsets not recorded are never touched.
By the documented contract of `sort.Stable` the net effect is that the
recorded positions are rewritten, left to right, with the stable sort of
the `KeyValue` elements; the embedding computes that rewriting directly,
using insertion sort (the textbook stable sort) for the subsequence. -/

/-- The `KeyValue` elements of an item sequence, in order (the subsequence
the Go code records). -/
def kvList (items : List Item) : List KeyValue :=
  items.filterMap fun it => match it with
    | .keyValue kv => some kv
    | _ => none

/-- The non-strict preorder induced by `subseq.Less`: `a` may stand before
`b` exactly when `b`'s name is not `Before` `a`'s. -/
def KvLE (a b : KeyValue) : Prop := ¬Key.before b.name a.name = true

instance : DecidableRel KvLE := fun _ _ => instDecidableNot

theorem Key.nbefore_trans {a b c : Key} (h1 : ¬Key.before b a = true)
    (h2 : ¬Key.before c b = true) : ¬Key.before c a = true := by
  intro hca
  rcases Key.before_trichotomy c b with h | h | h
  · exact h2 h
  · exact h1 (Key.before_trans h hca)
  · rw [h] at hca
    exact h1 hca

instance : IsTrans KeyValue KvLE where
  trans _ _ _ h1 h2 := Key.nbefore_trans h1 h2

instance : IsTotal KeyValue KvLE where
  total a b := by
    by_cases h : Key.before b.name a.name = true
    · exact Or.inr fun hc => by rw [Key.before_asymm h] at hc; cases hc
    · exact Or.inl h

/-- Writes the sorted `KeyValue` subsequence back into the positions that
held `KeyValue` elements, leaving every other position untouched (the
offsets recorded by the Go code are exactly the `KeyValue` offsets, and
`Swap` only ever exchanges contents of recorded offsets). -/
def fillKVs : List Item → List KeyValue → List Item
  | [], _ => []
  | .keyValue _ :: rest, s :: ss => .keyValue s :: fillKVs rest ss
  | .keyValue kv :: rest, [] => .keyValue kv :: fillKVs rest []
  | it :: rest, ss => it :: fillKVs rest ss

/-- `SortKeyValuesByName` from `transform/helper.go`. -/
def SortKeyValuesByName (items : List Item) : List Item :=
  fillKVs items (List.insertionSort KvLE (kvList items))

theorem fillKVs_length : ∀ (items : List Item) (ss : List KeyValue),
    (fillKVs items ss).length = items.length
  | [], _ => rfl
  | .keyValue _ :: rest, s :: ss => by simp [fillKVs, fillKVs_length rest ss]
  | .keyValue _ :: rest, [] => by simp [fillKVs, fillKVs_length rest []]
  | .comments c :: rest, ss => by simp [fillKVs, fillKVs_length rest ss]
  | .heading hh :: rest, ss => by simp [fillKVs, fillKVs_length rest ss]

theorem fillKVs_getD_of_not_kv :
    ∀ (items : List Item) (ss : List KeyValue) (i : Nat),
      (items.getD i (Item.comments [])).isKeyValue = false →
      (fillKVs items ss).getD i (Item.comments []) = items.getD i (Item.comments [])
  | [], _, _, _ => by simp [fillKVs]
  | .keyValue kv :: rest, s :: ss, 0, h => by simp [Item.isKeyValue] at h
  | .keyValue kv :: rest, s :: ss, i + 1, h => by
    simpa [fillKVs] using fillKVs_getD_of_not_kv rest ss i h
  | .keyValue kv :: rest, [], 0, h => by simp [Item.isKeyValue] at h
  | .keyValue kv :: rest, [], i + 1, h => by
    simpa [fillKVs] using fillKVs_getD_of_not_kv rest [] i h
  | .comments c :: rest, ss, 0, h => by simp [fillKVs]
  | .comments c :: rest, ss, i + 1, h => by
    simpa [fillKVs] using fillKVs_getD_of_not_kv rest ss i h
  | .heading hh :: rest, ss, 0, h => by simp [fillKVs]
  | .heading hh :: rest, ss, i + 1, h => by
    simpa [fillKVs] using fillKVs_getD_of_not_kv rest ss i h

theorem fillKVs_kvList : ∀ (items : List Item) (ss : List KeyValue),
    ss.length = (kvList items).length → kvList (fillKVs items ss) = ss
  | [], [], _ => rfl
  | [], s :: ss, h => by simp [kvList] at h
  | .keyValue kv :: rest, s :: ss, h => by
    have h' : ss.length = (kvList rest).length := by
      simpa [kvList, List.filterMap_cons] using h
    simp [fillKVs, kvList, List.filterMap_cons, fillKVs_kvList rest ss h']
    simpa [kvList] using fillKVs_kvList rest ss h'
  | .keyValue kv :: rest, [], h => by
    simp [kvList, List.filterMap_cons] at h
  | .comments c :: rest, ss, h => by
    have h' : ss.length = (kvList rest).length := by
      simpa [kvList, List.filterMap_cons] using h
    simpa [fillKVs, kvList, List.filterMap_cons] using fillKVs_kvList rest ss h'
  | .heading hh :: rest, ss, h => by
    have h' : ss.length = (kvList rest).length := by
      simpa [kvList, List.filterMap_cons] using h
    simpa [fillKVs, kvList, List.filterMap_cons] using fillKVs_kvList rest ss h'

/-- The items that are not key-value bindings, in order. -/
def nonKVs (items : List Item) : List Item :=
  items.filter fun it => !it.isKeyValue

theorem fillKVs_perm_aux : ∀ (items : List Item) (ss : List KeyValue),
    ss.length = (kvList items).length →
    (fillKVs items ss).Perm (ss.map Item.keyValue ++ nonKVs items)
  | [], [], _ => by simp [fillKVs, nonKVs]
  | [], s :: ss, h => by simp [kvList] at h
  | .keyValue kv :: rest, s :: ss, h => by
    have h' : ss.length = (kvList rest).length := by
      simpa [kvList, List.filterMap_cons] using h
    simpa [fillKVs, nonKVs, Item.isKeyValue] using
      (fillKVs_perm_aux rest ss h').cons (Item.keyValue s)
  | .keyValue kv :: rest, [], h => by
    simp [kvList, List.filterMap_cons] at h
  | .comments c :: rest, ss, h => by
    have h' : ss.length = (kvList rest).length := by
      simpa [kvList, List.filterMap_cons] using h
    have hmid : List.Perm (ss.map Item.keyValue ++ Item.comments c :: nonKVs rest)
        (Item.comments c :: (ss.map Item.keyValue ++ nonKVs rest)) := List.perm_middle
    have := ((fillKVs_perm_aux rest ss h').cons (Item.comments c)).trans hmid.symm
    simpa [fillKVs, nonKVs, Item.isKeyValue] using this
  | .heading hh :: rest, ss, h => by
    have h' : ss.length = (kvList rest).length := by
      simpa [kvList, List.filterMap_cons] using h
    have hmid : List.Perm (ss.map Item.keyValue ++ Item.heading hh :: nonKVs rest)
        (Item.heading hh :: (ss.map Item.keyValue ++ nonKVs rest)) := List.perm_middle
    have := ((fillKVs_perm_aux rest ss h').cons (Item.heading hh)).trans hmid.symm
    simpa [fillKVs, nonKVs, Item.isKeyValue] using this

theorem self_perm_kv_split : ∀ items : List Item,
    items.Perm ((kvList items).map Item.keyValue ++ nonKVs items)
  | [] => by simp [kvList, nonKVs]
  | .keyValue kv :: rest => by
    simpa [kvList, nonKVs, List.filterMap_cons, Item.isKeyValue] using
      (self_perm_kv_split rest).cons (Item.keyValue kv)
  | .comments c :: rest => by
    have hmid : List.Perm ((kvList rest).map Item.keyValue ++ Item.comments c :: nonKVs rest)
        (Item.comments c :: ((kvList rest).map Item.keyValue ++ nonKVs rest)) := List.perm_middle
    have := ((self_perm_kv_split rest).cons (Item.comments c)).trans hmid.symm
    simpa [kvList, nonKVs, List.filterMap_cons, Item.isKeyValue] using this
  | .heading hh :: rest => by
    have hmid : List.Perm ((kvList rest).map Item.keyValue ++ Item.heading hh :: nonKVs rest)
        (Item.heading hh :: ((kvList rest).map Item.keyValue ++ nonKVs rest)) := List.perm_middle
    have := ((self_perm_kv_split rest).cons (Item.heading hh)).trans hmid.symm
    simpa [kvList, nonKVs, List.filterMap_cons, Item.isKeyValue] using this

theorem filter_orderedInsert_keyEq (k : Key) (x : KeyValue) :
    ∀ l : List KeyValue,
      (List.orderedInsert KvLE x l).filter (fun kv => kv.name == k)
        = if x.name == k
            then x :: l.filter (fun kv => kv.name == k)
            else l.filter (fun kv => kv.name == k)
  | [] => by
    by_cases hx : x.name == k <;> simp [List.orderedInsert, hx]
  | y :: ys => by
    by_cases hxy : KvLE x y
    · rw [List.orderedInsert, if_pos hxy]
      by_cases hx : x.name == k <;> simp [hx]
    · rw [List.orderedInsert, if_neg hxy]
      by_cases hx : x.name == k
      · have hy : (y.name == k) = false := by
          rcases hyk : y.name == k with _ | _
          · rfl
          · exfalso
            apply hxy
            intro hbf
            have hxk : x.name = k := by simpa using hx
            have hyk' : y.name = k := by simpa using hyk
            rw [hxk, hyk', Key.before_irrefl] at hbf
            cases hbf
        simp only [List.filter_cons, hy, if_pos hx, cond_false]
        rw [filter_orderedInsert_keyEq k x ys, if_pos hx]
        simp [hy]
      · have hx' : x.name ≠ k := by simpa using hx
        simp only [List.filter_cons]
        rw [filter_orderedInsert_keyEq k x ys, if_neg hx]
        by_cases hy : y.name == k <;> simp [hy, hx']

theorem filter_insertionSort_keyEq (k : Key) :
    ∀ l : List KeyValue,
      (List.insertionSort KvLE l).filter (fun kv => kv.name == k)
        = l.filter (fun kv => kv.name == k)
  | [] => rfl
  | x :: xs => by
    rw [List.insertionSort, filter_orderedInsert_keyEq k x (List.insertionSort KvLE xs),
      filter_insertionSort_keyEq k xs]
    by_cases hx : x.name == k <;> simp [hx, List.filter_cons]

/-- C2: `SortKeyValuesByName` keeps the length, leaves every non-KeyValue
item at exactly its original index, permutes the item multiset, and the
positions that held KeyValue items, read left to right, now carry the
KeyValue items stably sorted by the `Key.Before` ordering: same KeyValue
multiset, pairwise ordered so that no later name is `Before` an earlier
one, and items of equal key keep their relative input order. -/
theorem sortKeyValuesByName_spec (items : List Item) :
    ((SortKeyValuesByName items).length = items.length)
    ∧ (∀ i : Nat, (items.getD i (Item.comments [])).isKeyValue = false →
        (SortKeyValuesByName items).getD i (Item.comments [])
          = items.getD i (Item.comments []))
    ∧ (SortKeyValuesByName items).Perm items
    ∧ (kvList (SortKeyValuesByName items)).Perm (kvList items)
    ∧ List.Sorted KvLE (kvList (SortKeyValuesByName items))
    ∧ (∀ k : Key,
        (kvList (SortKeyValuesByName items)).filter (fun kv => kv.name == k)
          = (kvList items).filter (fun kv => kv.name == k)) := by
  have hlen : (List.insertionSort KvLE (kvList items)).length = (kvList items).length :=
    (List.perm_insertionSort KvLE (kvList items)).length_eq
  have hfill : kvList (SortKeyValuesByName items) = List.insertionSort KvLE (kvList items) :=
    fillKVs_kvList items _ hlen
  refine ⟨fillKVs_length items _, fun i h => fillKVs_getD_of_not_kv items _ i h, ?_, ?_, ?_, ?_⟩
  · refine (fillKVs_perm_aux items _ hlen).trans ?_
    refine List.Perm.trans ?_ (self_perm_kv_split items).symm
    exact ((List.perm_insertionSort KvLE (kvList items)).map Item.keyValue).append_right _
  · rw [hfill]
    exact List.perm_insertionSort KvLE (kvList items)
  · rw [hfill]
    exact List.sorted_insertionSort KvLE (kvList items)
  · intro k
    rw [hfill]
    exact filter_insertionSort_keyEq k (kvList items)

/-- The item sequence of the stable-sort fixture in the specification:
comment blocks interleaved with the mappings `x=5, a=1, m=3, r=4, a=2`. -/
def sortFixture : List Item :=
  [.comments ["# xc"],
   .keyValue (.mk [] ["x"] (.mk "" (.token true "Integer" "5"))),
   .comments ["# stay"],
   .keyValue (.mk [] ["a"] (.mk "" (.token true "Integer" "1"))),
   .keyValue (.mk [] ["m"] (.mk "" (.token true "Integer" "3"))),
   .comments ["# rc"],
   .keyValue (.mk [] ["r"] (.mk "" (.token true "Integer" "4"))),
   .keyValue (.mk [] ["a"] (.mk "" (.token true "Integer" "2")))]

example :
    (kvList (SortKeyValuesByName sortFixture)).map renderKV
      = ["a = 1", "a = 2", "m = 3", "r = 4", "x = 5"] := by decide

/-- Witness for `sortKeyValuesByName_spec` on the specification fixture:
the comment slot at index 0 is untouched and the two `a` mappings keep
their relative order. -/
theorem sortKeyValuesByName_spec_witness :
    (SortKeyValuesByName sortFixture).getD 0 (Item.comments [])
      = sortFixture.getD 0 (Item.comments [])
    ∧ (kvList (SortKeyValuesByName sortFixture)).filter (fun kv => kv.name == ["a"])
      = (kvList sortFixture).filter (fun kv => kv.name == ["a"]) :=
  ⟨(sortKeyValuesByName_spec sortFixture).2.1 0 (by decide),
   (sortKeyValuesByName_spec sortFixture).2.2.2.2.2 ["a"]⟩

/-! ## The document model

The document-layer source (`tomledit.go`) is not part of the snapshot.
Modelled from the spec: a `Section` is an optional `Heading` (absent
exactly for the implicit global section) plus an ordered sequence of
`Items`; a `Document` is an optional global `Section` plus an ordered
sequence of named `Section`s. -/

structure Section where
  heading : Option Heading
  items : List Item

/-- `Section.Name`: the heading name; the unnamed global section reports
the empty key. -/
def Section.name (s : Section) : Key :=
  match s.heading with
  | none => []
  | some h => h.name

structure Document where
  global : Option Section
  sections : List Section

/-- The reference a `FindTable` entry holds: the global section or the
section at a given index of the document section list. -/
inductive TabRef where
  | global
  | sec (i : Nat)
deriving DecidableEq

/-- The search loop of `FindTable`: first section whose name `Equals` the
argument key, reported by index. -/
def findSecIdx (name : Key) : List Section → Nat → Option Nat
  | [], _ => none
  | s :: rest, i =>
    if Key.equals (Section.name s) name then some i else findSecIdx name rest (i + 1)

/-- `FindTable` from `transform/helper.go`: the empty name designates the
global section (none when the document has no global section); otherwise
the first section whose name equals the key. -/
def FindTable (d : Document) (name : Key) : Option TabRef :=
  if name.isEmpty then
    match d.global with
    | none => none
    | some _ => some .global
  else
    (findSecIdx name d.sections 0).map TabRef.sec

theorem findSecIdx_none_iff (name : Key) :
    ∀ (ss : List Section) (i0 : Nat),
      findSecIdx name ss i0 = none ↔ ∀ s ∈ ss, Section.name s ≠ name
  | [], _ => by simp [findSecIdx]
  | s :: rest, i0 => by
    by_cases h : Key.equals (Section.name s) name
    · have hname := (Key.equals_iff _ _).mp h
      rw [findSecIdx, if_pos h]
      constructor
      · intro hc
        exact (Option.some_ne_none _ hc).elim
      · intro hall
        exact absurd hname (hall s (List.mem_cons_self s rest))
    · have hne : Section.name s ≠ name := fun he => h ((Key.equals_iff _ _).mpr he)
      simp [findSecIdx, if_neg h, findSecIdx_none_iff name rest (i0 + 1), hne]

theorem findSecIdx_some_iff (name : Key) :
    ∀ (ss : List Section) (i0 r : Nat),
      findSecIdx name ss i0 = some r ↔
        ∃ pre s post, ss = pre ++ s :: post ∧ r = i0 + pre.length
          ∧ Section.name s = name ∧ ∀ s' ∈ pre, Section.name s' ≠ name
  | [], i0, r => by simp [findSecIdx]
  | s :: rest, i0, r => by
    by_cases h : Key.equals (Section.name s) name
    · rw [findSecIdx, if_pos h]
      constructor
      · intro he
        have hr : r = i0 := by injection he with he; exact he.symm
        exact ⟨[], s, rest, by simp, by simp [hr], (Key.equals_iff _ _).mp h, by simp⟩
      · rintro ⟨pre, s', post, hss, hr, hs'name, hpre⟩
        cases pre with
        | nil =>
          simp only [List.length_nil, Nat.add_zero] at hr
          rw [hr]
        | cons p ps =>
          exfalso
          simp only [List.cons_append] at hss
          injection hss with h1 h2
          exact hpre p (by simp) (h1 ▸ (Key.equals_iff _ _).mp h)
    · have hne : Section.name s ≠ name := fun he => h ((Key.equals_iff _ _).mpr he)
      rw [findSecIdx, if_neg h, findSecIdx_some_iff name rest (i0 + 1) r]
      constructor
      · rintro ⟨pre, s', post, hss, hr, hs'name, hpre⟩
        refine ⟨s :: pre, s', post, by simp [hss], ?_, hs'name, ?_⟩
        · simp only [List.length_cons]
          omega
        · intro x hx
          rcases List.mem_cons.mp hx with rfl | hx
          · exact hne
          · exact hpre x hx
      · rintro ⟨pre, s', post, hss, hr, hs'name, hpre⟩
        cases pre with
        | nil =>
          exfalso
          simp only [List.nil_append] at hss
          injection hss with h1 h2
          exact hne (h1 ▸ hs'name)
        | cons p ps =>
          simp only [List.cons_append] at hss
          injection hss with h1 h2
          refine ⟨ps, s', post, h2, ?_, hs'name, fun x hx => hpre x (List.mem_cons_of_mem p hx)⟩
          simp only [List.length_cons] at hr
          omega

/-- C8: with zero fragments `FindTable` reports the global section, or
nothing when the document has none; with a non-empty key it reports the
first section, in document order, whose name exactly equals the given
fragments, and nothing when no section's name equals them. -/
theorem findTable_spec (d : Document) (name : Key) :
    (name = [] → d.global.isSome = true → FindTable d name = some .global)
    ∧ (name = [] → d.global = none → FindTable d name = none)
    ∧ (name ≠ [] →
        ((FindTable d name = none ↔ ∀ s ∈ d.sections, Section.name s ≠ name)
         ∧ (∀ i : Nat, FindTable d name = some (.sec i) ↔
             ∃ pre s post, d.sections = pre ++ s :: post ∧ i = pre.length
               ∧ Section.name s = name ∧ ∀ s' ∈ pre, Section.name s' ≠ name))) := by
  refine ⟨?_, ?_, ?_⟩
  · rintro rfl hg
    rcases h : d.global with _ | s
    · rw [h] at hg; cases hg
    · simp [FindTable, h]
  · rintro rfl hg
    simp [FindTable, hg]
  · intro hne
    have hne' : ¬name.isEmpty = true := by
      cases name with
      | nil => exact absurd rfl hne
      | cons a as => simp
    constructor
    · rw [FindTable, if_neg hne', Option.map_eq_none']
      exact findSecIdx_none_iff name d.sections 0
    · intro i
      rw [FindTable, if_neg hne']
      constructor
      · intro h
        have hf : findSecIdx name d.sections 0 = some i := by
          rcases hf : findSecIdx name d.sections 0 with _ | r
          · rw [hf] at h
            cases h
          · rw [hf] at h
            simp only [Option.map_some', Option.some.injEq] at h
            rw [TabRef.sec.inj h]
        have := (findSecIdx_some_iff name d.sections 0 i).mp hf
        simpa using this
      · intro hdecomp
        have hf : findSecIdx name d.sections 0 = some i :=
          (findSecIdx_some_iff name d.sections 0 i).mpr (by simpa using hdecomp)
        simp [hf]

def secA : Section := { heading := some ⟨[], "", false, ["a"]⟩, items := [] }

def secB1 : Section :=
  { heading := some ⟨[], "", false, ["b"]⟩
    items := [.keyValue (.mk [] ["k"] (.mk "" (.token true "Integer" "1")))] }

def secB2 : Section := { heading := some ⟨[], "", false, ["b"]⟩, items := [] }

def ftDoc : Document :=
  { global := some { heading := none, items := [] }, sections := [secA, secB1, secB2] }

/-- Witness for `findTable_spec`: on a concrete document the empty key
finds the global section and `["b"]` finds the first of the two sections
named `b`. -/
theorem findTable_spec_witness :
    FindTable ftDoc [] = some .global ∧ FindTable ftDoc ["b"] = some (.sec 1) := by
  refine ⟨(findTable_spec ftDoc []).1 rfl rfl, ?_⟩
  refine (((findTable_spec ftDoc ["b"]).2.2 (by decide)).2 1).mpr
    ⟨[secA], secB1, [secB2], rfl, rfl, rfl, ?_⟩
  intro s' hs'
  simp only [List.mem_singleton] at hs'
  subst hs'
  decide

/-! ## `EnsureKey` (transform package) -/

/-- The item list of the table a `TabRef` designates (empty when the
reference does not point at an existing table). -/
def refItems (d : Document) : TabRef → List Item
  | .global =>
    match d.global with
    | some s => s.items
    | none => []
  | .sec i =>
    match d.sections[i]? with
    | some s => s.items
    | none => []

/-- Replaces the item list of the table a `TabRef` designates, modelling
the in-place `tab.Items = append(...)` of the Go code. -/
def setRefItems (d : Document) : TabRef → List Item → Document
  | .global, its =>
    match d.global with
    | some s => { d with global := some { s with items := its } }
    | none => d
  | .sec i, its =>
    match d.sections[i]? with
    | some s => { d with sections := d.sections.set i { s with items := its } }
    | none => d

/-- The membership loop of `EnsureKey`: some item is a `KeyValue` whose
name `Equals` the candidate name. -/
def hasKeyItem (items : List Item) (k : Key) : Bool :=
  items.any fun it =>
    match it with
    | .keyValue cur => Key.equals cur.name k
    | _ => false

/-- How many items of the list are `KeyValue`s with the given key. -/
def countKeyIn (items : List Item) (k : Key) : Nat :=
  items.countP fun it =>
    match it with
    | .keyValue cur => Key.equals cur.name k
    | _ => false

/-- `EnsureKey` from the transform package: errors when the table is not
found; otherwise appends the candidate as last item unless some existing
item already carries its key. -/
def EnsureKey (table : Key) (kv : KeyValue) (d : Document) : Option String × Document :=
  match FindTable d table with
  | none => (some "table not found", d)
  | some ref =>
    if hasKeyItem (refItems d ref) kv.name then (none, d)
    else (none, setRefItems d ref (refItems d ref ++ [.keyValue kv]))

theorem list_set_getElem? {α : Type} : ∀ (l : List α) (n : Nat) (a : α),
    l[n]? = some a → l.set n a = l
  | [], _, _, h => by cases h
  | x :: xs, 0, a, h => by
    simp only [List.getElem?_cons_zero, Option.some.injEq] at h
    simp [h]
  | x :: xs, n + 1, a, h => by
    simp only [List.getElem?_cons_succ] at h
    simp [list_set_getElem? xs n a h]

theorem list_getElem?_set_self {α : Type} : ∀ (l : List α) (n : Nat) (a : α),
    n < l.length → (l.set n a)[n]? = some a
  | [], _, _, h => by cases h
  | x :: xs, 0, a, _ => by simp
  | x :: xs, n + 1, a, h => by
    simp only [List.set_cons_succ, List.getElem?_cons_succ]
    exact list_getElem?_set_self xs n a (by simpa using h)

theorem findSecIdx_map_congr (k : Key) :
    ∀ (ss1 ss2 : List Section) (i : Nat),
      ss1.map Section.name = ss2.map Section.name →
      findSecIdx k ss1 i = findSecIdx k ss2 i
  | [], [], _, _ => rfl
  | [], _ :: _, _, h => by simp at h
  | _ :: _, [], _, h => by simp at h
  | s1 :: r1, s2 :: r2, i, h => by
    simp only [List.map_cons, List.cons.injEq] at h
    rw [findSecIdx, findSecIdx, h.1, findSecIdx_map_congr k r1 r2 (i + 1) h.2]

theorem findTable_setRefItems (d : Document) (ref : TabRef) (its : List Item)
    (table : Key) :
    FindTable (setRefItems d ref its) table = FindTable d table := by
  cases ref with
  | global =>
    rcases hg : d.global with _ | s
    · simp [setRefItems, hg]
    · by_cases ht : table.isEmpty
      · simp [FindTable, setRefItems, hg, ht]
      · simp [FindTable, setRefItems, hg, ht]
  | sec i =>
    rcases hi : d.sections[i]? with _ | s
    · simp [setRefItems, hi]
    · have hsr : setRefItems d (.sec i) its
          = { d with sections := d.sections.set i { s with items := its } } := by
        simp [setRefItems, hi]
      rw [hsr]
      by_cases ht : table.isEmpty = true
      · simp [FindTable, ht]
      · rw [FindTable, FindTable, if_neg ht, if_neg ht]
        congr 1
        apply findSecIdx_map_congr
        rw [List.map_set]
        have hname : Section.name { s with items := its } = Section.name s := rfl
        rw [hname]
        exact list_set_getElem? _ _ _ (by rw [List.getElem?_map, hi]; rfl)

/-- Whether a `TabRef` designates an existing table of the document. -/
def refValid (d : Document) : TabRef → Bool
  | .global => d.global.isSome
  | .sec i => i < d.sections.length

theorem refItems_setRefItems (d : Document) (ref : TabRef) (its : List Item)
    (hv : refValid d ref = true) : refItems (setRefItems d ref its) ref = its := by
  cases ref with
  | global =>
    rcases hg : d.global with _ | s
    · rw [refValid, hg] at hv
      cases hv
    · simp [refItems, setRefItems, hg]
  | sec i =>
    rw [refValid] at hv
    have hlen : i < d.sections.length := by simpa using hv
    rcases hi : d.sections[i]? with _ | s
    · rw [List.getElem?_eq_none_iff] at hi
      omega
    · have : (d.sections.set i { s with items := its })[i]? = some { s with items := its } :=
        list_getElem?_set_self _ _ _ hlen
      simp [refItems, setRefItems, hi, this]

theorem findTable_valid {d : Document} {table : Key} {ref : TabRef}
    (h : FindTable d table = some ref) : refValid d ref = true := by
  cases ref with
  | global =>
    rw [FindTable] at h
    by_cases ht : table.isEmpty = true
    · rw [if_pos ht] at h
      rcases hg : d.global with _ | s
      · rw [hg] at h
        cases h
      · simp [refValid, hg]
    · rw [if_neg ht] at h
      rcases hf : findSecIdx table d.sections 0 with _ | r
      · rw [hf] at h
        cases h
      · rw [hf] at h
        cases h
  | sec i =>
    rw [FindTable] at h
    by_cases ht : table.isEmpty = true
    · rw [if_pos ht] at h
      rcases hg : d.global with _ | s
      · rw [hg] at h
        cases h
      · rw [hg] at h
        cases h
    · rw [if_neg ht] at h
      rcases hf : findSecIdx table d.sections 0 with _ | r
      · rw [hf] at h
        cases h
      · rw [hf] at h
        simp only [Option.map_some', Option.some.injEq] at h
        obtain ⟨pre, s, post, hss, hr, -, -⟩ :=
          (findSecIdx_some_iff table d.sections 0 r).mp hf
        have : i = r := (TabRef.sec.inj h).symm
        rw [refValid]
        simp only [decide_eq_true_eq]
        rw [this, hr, hss]
        simp only [List.length_append, List.length_cons]
        omega

theorem count_pos_iff_hasKey (items : List Item) (k : Key) :
    0 < countKeyIn items k ↔ hasKeyItem items k = true := by
  rw [countKeyIn, hasKeyItem, List.countP_pos_iff, List.any_eq_true]

theorem count_eq_zero_of_not_hasKey {items : List Item} {k : Key}
    (h : hasKeyItem items k = false) : countKeyIn items k = 0 := by
  by_contra hc
  have : 0 < countKeyIn items k := Nat.pos_of_ne_zero hc
  rw [count_pos_iff_hasKey items k] at this
  rw [h] at this
  cases this

theorem hasKeyItem_append_self (items : List Item) (kv : KeyValue) :
    hasKeyItem (items ++ [.keyValue kv]) kv.name = true := by
  have : Key.equals kv.name kv.name = true := (Key.equals_iff _ _).mpr rfl
  simp [hasKeyItem, List.any_append, this]

theorem countKeyIn_append_self (items : List Item) (kv : KeyValue) :
    countKeyIn (items ++ [.keyValue kv]) kv.name = countKeyIn items kv.name + 1 := by
  have : Key.equals kv.name kv.name = true := (Key.equals_iff _ _).mpr rfl
  simp [countKeyIn, List.countP_append, List.countP_cons, this]

/-- C5 (amended): `EnsureKey` errs exactly when the table is not found;
it appends the candidate as last item exactly when no item of the table
already carries its key, and otherwise changes nothing; the second of two
identical applications leaves the document unchanged, and two applications
leave exactly one occurrence of the key provided the table did not already
hold more than one item with that key. -/
theorem ensureKey_spec (table : Key) (kv : KeyValue) (d : Document) :
    ((EnsureKey table kv d).1.isSome = true ↔ FindTable d table = none)
    ∧ ((EnsureKey table kv (EnsureKey table kv d).2).2 = (EnsureKey table kv d).2)
    ∧ (∀ ref, FindTable d table = some ref →
        (hasKeyItem (refItems d ref) kv.name = true → (EnsureKey table kv d).2 = d)
        ∧ (hasKeyItem (refItems d ref) kv.name = false →
            refItems (EnsureKey table kv d).2 ref = refItems d ref ++ [.keyValue kv])
        ∧ (countKeyIn (refItems d ref) kv.name ≤ 1 →
            countKeyIn (refItems (EnsureKey table kv (EnsureKey table kv d).2).2 ref) kv.name
              = 1)) := by
  rcases hft : FindTable d table with _ | ref
  · have he : EnsureKey table kv d = (some "table not found", d) := by
      simp [EnsureKey, hft]
    have hd : (EnsureKey table kv d).2 = d := by rw [he]
    refine ⟨by simp [he, hft], ?_, ?_⟩
    · simp only [hd]
    · intro ref href
      exact Option.noConfusion href
  · by_cases hk : hasKeyItem (refItems d ref) kv.name = true
    · have he : EnsureKey table kv d = (none, d) := by
        simp [EnsureKey, hft, hk]
      have hd : (EnsureKey table kv d).2 = d := by rw [he]
      refine ⟨by simp [he, hft], by simp only [hd], ?_⟩
      intro ref' href'
      have hrr : ref = ref' := by injection href'
      subst hrr
      refine ⟨fun _ => hd, ?_, ?_⟩
      · intro hfalse
        rw [hk] at hfalse
        cases hfalse
      · intro hle
        have hpos : 0 < countKeyIn (refItems d ref) kv.name :=
          (count_pos_iff_hasKey _ _).mpr hk
        simp only [hd]
        omega
    · have hkf : hasKeyItem (refItems d ref) kv.name = false := by
        rcases h : hasKeyItem (refItems d ref) kv.name with _ | _
        · rfl
        · exact absurd h hk
      have he : EnsureKey table kv d
          = (none, setRefItems d ref (refItems d ref ++ [.keyValue kv])) := by
        simp [EnsureKey, hft, hkf]
      set d1 := setRefItems d ref (refItems d ref ++ [.keyValue kv]) with hd1
      have hd : (EnsureKey table kv d).2 = d1 := by rw [he]
      have hv : refValid d ref = true := findTable_valid hft
      have hitems1 : refItems d1 ref = refItems d ref ++ [.keyValue kv] :=
        refItems_setRefItems d ref _ hv
      have hft1 : FindTable d1 table = some ref := by
        rw [hd1, findTable_setRefItems, hft]
      have hk1 : hasKeyItem (refItems d1 ref) kv.name = true := by
        rw [hitems1]
        exact hasKeyItem_append_self _ kv
      have he2 : EnsureKey table kv d1 = (none, d1) := by
        simp [EnsureKey, hft1, hk1]
      have hd2 : (EnsureKey table kv d1).2 = d1 := by rw [he2]
      refine ⟨by simp [he, hft], by simp only [hd]; exact hd2, ?_⟩
      intro ref' href'
      have hrr : ref = ref' := by injection href'
      subst hrr
      refine ⟨?_, ?_, ?_⟩
      · intro htrue
        rw [htrue] at hkf
        cases hkf
      · intro hfalse
        rw [hd]
        exact hitems1
      · intro hle
        have hz : countKeyIn (refItems d ref) kv.name = 0 := count_eq_zero_of_not_hasKey hkf
        simp only [hd, hd2]
        rw [hitems1, countKeyIn_append_self, hz]

def ensureDoc : Document :=
  { global := none
    sections :=
      [{ heading := some ⟨[], "", false, ["t"]⟩
         items := [.keyValue (.mk [] ["a"] (.mk "" (.token true "Integer" "1"))),
                   .keyValue (.mk [] ["a"] (.mk "" (.token true "Integer" "2")))] }] }

def ensureKV : KeyValue := .mk [] ["a"] (.mk "" (.token true "Integer" "3"))

/-- Counterexample to C5 as stated: on a table that already holds two
items with key `a`, applying `EnsureKey` for `a` twice leaves two
occurrences of that key, not exactly one. -/
theorem ensureKey_counterexample :
    countKeyIn (refItems (EnsureKey ["t"] ensureKV
        (EnsureKey ["t"] ensureKV ensureDoc).2).2 (.sec 0)) ["a"] = 2
    ∧ (2 : Nat) ≠ 1 := by
  constructor
  · decide
  · decide

/-- Witness for `ensureKey_spec` on a concrete document: the candidate is
appended once, and a second application leaves exactly one occurrence. -/
theorem ensureKey_spec_witness :
    refItems (EnsureKey ["b"] ensureKV ftDoc).2 (.sec 1)
      = refItems ftDoc (.sec 1) ++ [.keyValue ensureKV]
    ∧ countKeyIn (refItems (EnsureKey ["b"] ensureKV
        (EnsureKey ["b"] ensureKV ftDoc).2).2 (.sec 1)) ["a"] = 1 := by
  have h := (ensureKey_spec ["b"] ensureKV ftDoc).2.2 (.sec 1) (by decide)
  exact ⟨h.2.1 (by decide), h.2.2 (by decide)⟩

/-! ## Locators into the document tree

The document layer hands out `Entry` values that alias nodes of the
mutable tree through Go pointers.  The functional embedding replaces a
pointer by a coordinate path: a key-value binding lives at an index of an
item list (of the global section or a named section) followed by descent
steps through inline tables and arrays. -/

/-- One navigation step: an index into an `Items` list, into an `Inline`
key-value list, or into an `Array` element list. -/
inductive Coord where
  | item (i : Nat)
  | inl (j : Nat)
  | arr (j : Nat)
deriving DecidableEq

/-- The location of a key-value binding: the section holding it plus the
descent path, which starts with an `item` step and continues through
inline tables (`inl`) and array elements (`arr`). -/
structure KVLoc where
  base : TabRef
  path : List Coord
deriving DecidableEq

def KeyValue.withDatum (kv : KeyValue) (d : Datum) : KeyValue :=
  .mk kv.block kv.name (.mk kv.value.trailer d)

def KeyValue.withName (kv : KeyValue) (n : Key) : KeyValue :=
  .mk kv.block n kv.value

mutual
/-- Resolves a coordinate path inside an item list to the key-value
binding it addresses. -/
def kvGetInItems : List Coord → List Item → Option KeyValue
  | [.item i], items =>
    match items[i]? with
    | some (.keyValue kv) => some kv
    | _ => none
  | .item i :: c :: rest, items =>
    match items[i]? with
    | some (.keyValue kv) => kvGetInDatum (c :: rest) kv.value.x
    | _ => none
  | _, _ => none

def kvGetInDatum : List Coord → Datum → Option KeyValue
  | [.inl j], .inline kvs => kvs[j]?
  | .inl j :: c :: rest, .inline kvs =>
    match kvs[j]? with
    | some kv => kvGetInDatum (c :: rest) kv.value.x
    | none => none
  | .arr j :: c :: rest, .array its =>
    match its[j]? with
    | some (.value v) => kvGetInDatum (c :: rest) v.x
    | _ => none
  | _, _ => none
end

mutual
/-- Splices the addressed key-value binding out of its owning list, the
functional counterpart of the in-place splice of `Entry.Remove`. -/
def kvRemoveInItems : List Coord → List Item → Option (List Item)
  | [.item i], items =>
    match items[i]? with
    | some (.keyValue _) => some (items.eraseIdx i)
    | _ => none
  | .item i :: c :: rest, items =>
    match items[i]? with
    | some (.keyValue kv) =>
      (kvRemoveInDatum (c :: rest) kv.value.x).map fun d' =>
        items.set i (.keyValue (kv.withDatum d'))
    | _ => none
  | _, _ => none

def kvRemoveInDatum : List Coord → Datum → Option Datum
  | [.inl j], .inline kvs =>
    match kvs[j]? with
    | some _ => some (.inline (kvs.eraseIdx j))
    | none => none
  | .inl j :: c :: rest, .inline kvs =>
    match kvs[j]? with
    | some kv =>
      (kvRemoveInDatum (c :: rest) kv.value.x).map fun d' =>
        Datum.inline (kvs.set j (kv.withDatum d'))
    | none => none
  | .arr j :: c :: rest, .array its =>
    match its[j]? with
    | some (.value v) =>
      (kvRemoveInDatum (c :: rest) v.x).map fun d' =>
        Datum.array (its.set j (.value (.mk v.trailer d')))
    | _ => none
  | _, _ => none
end

mutual
/-- Rewrites the addressed key-value binding through `f`, the functional
counterpart of mutating a node through an aliasing pointer. -/
def kvModifyInItems (f : KeyValue → Option KeyValue) :
    List Coord → List Item → Option (List Item)
  | [.item i], items =>
    match items[i]? with
    | some (.keyValue kv) =>
      (f kv).map fun kv' => items.set i (.keyValue kv')
    | _ => none
  | .item i :: c :: rest, items =>
    match items[i]? with
    | some (.keyValue kv) =>
      (kvModifyInDatum f (c :: rest) kv.value.x).map fun d' =>
        items.set i (.keyValue (kv.withDatum d'))
    | _ => none
  | _, _ => none

def kvModifyInDatum (f : KeyValue → Option KeyValue) :
    List Coord → Datum → Option Datum
  | [.inl j], .inline kvs =>
    match kvs[j]? with
    | some kv => (f kv).map fun kv' => Datum.inline (kvs.set j kv')
    | none => none
  | .inl j :: c :: rest, .inline kvs =>
    match kvs[j]? with
    | some kv =>
      (kvModifyInDatum f (c :: rest) kv.value.x).map fun d' =>
        Datum.inline (kvs.set j (kv.withDatum d'))
    | none => none
  | .arr j :: c :: rest, .array its =>
    match its[j]? with
    | some (.value v) =>
      (kvModifyInDatum f (c :: rest) v.x).map fun d' =>
        Datum.array (its.set j (.value (.mk v.trailer d')))
    | _ => none
  | _, _ => none
end

mutual
/-- The length of the list owning the addressed key-value binding. -/
def ownerLenInItems : List Coord → List Item → Nat
  | [.item _], items => items.length
  | .item i :: c :: rest, items =>
    match items[i]? with
    | some (.keyValue kv) => ownerLenInDatum (c :: rest) kv.value.x
    | _ => 0
  | _, _ => 0

def ownerLenInDatum : List Coord → Datum → Nat
  | [.inl _], .inline kvs => kvs.length
  | .inl j :: c :: rest, .inline kvs =>
    match kvs[j]? with
    | some kv => ownerLenInDatum (c :: rest) kv.value.x
    | none => 0
  | .arr j :: c :: rest, .array its =>
    match its[j]? with
    | some (.value v) => ownerLenInDatum (c :: rest) v.x
    | _ => 0
  | _, _ => 0
end

def kvGet (d : Document) (l : KVLoc) : Option KeyValue :=
  kvGetInItems l.path (refItems d l.base)

def kvRemove (d : Document) (l : KVLoc) : Option Document :=
  (kvRemoveInItems l.path (refItems d l.base)).map (setRefItems d l.base)

def kvModify (d : Document) (l : KVLoc) (f : KeyValue → Option KeyValue) :
    Option Document :=
  (kvModifyInItems f l.path (refItems d l.base)).map (setRefItems d l.base)

def kvOwnerLen (d : Document) (l : KVLoc) : Nat :=
  ownerLenInItems l.path (refItems d l.base)

mutual
theorem kvRemoveInItems_ownerLen :
    ∀ (p : List Coord) (items : List Item),
      (kvGetInItems p items).isSome = true →
      ∃ items', kvRemoveInItems p items = some items'
        ∧ ownerLenInItems p items' + 1 = ownerLenInItems p items
  | [], items => by
    intro h
    simp [kvGetInItems] at h
  | [.item i], items => by
    intro h
    rcases hi : items[i]? with _ | it
    · simp [kvGetInItems, hi] at h
    · cases it with
      | keyValue kv =>
        obtain ⟨hlt, -⟩ := List.getElem?_eq_some.mp hi
        refine ⟨items.eraseIdx i, by simp [kvRemoveInItems, hi], ?_⟩
        simp only [ownerLenInItems]
        exact List.length_eraseIdx_add_one hlt
      | comments c => simp [kvGetInItems, hi] at h
      | heading hh => simp [kvGetInItems, hi] at h
  | .item i :: c :: rest, items => by
    intro h
    rcases hi : items[i]? with _ | it
    · simp [kvGetInItems, hi] at h
    · cases it with
      | keyValue kv =>
        have h' : (kvGetInDatum (c :: rest) kv.value.x).isSome = true := by
          simpa [kvGetInItems, hi] using h
        obtain ⟨d', hrem, hlen⟩ := kvRemoveInDatum_ownerLen (c :: rest) kv.value.x h'
        obtain ⟨hlt, -⟩ := List.getElem?_eq_some.mp hi
        refine ⟨items.set i (.keyValue (kv.withDatum d')), ?_, ?_⟩
        · simp [kvRemoveInItems, hi, hrem]
        · have hset : (items.set i (.keyValue (kv.withDatum d')))[i]?
              = some (.keyValue (kv.withDatum d')) := list_getElem?_set_self _ _ _ hlt
          simp only [ownerLenInItems, hi, hset]
          simpa [KeyValue.withDatum, KeyValue.value, Value.x] using hlen
      | comments cc => simp [kvGetInItems, hi] at h
      | heading hh => simp [kvGetInItems, hi] at h
  | .inl j :: rest, items => by
    intro h
    simp [kvGetInItems] at h
  | .arr j :: rest, items => by
    intro h
    simp [kvGetInItems] at h

theorem kvRemoveInDatum_ownerLen :
    ∀ (p : List Coord) (dat : Datum),
      (kvGetInDatum p dat).isSome = true →
      ∃ dat', kvRemoveInDatum p dat = some dat'
        ∧ ownerLenInDatum p dat' + 1 = ownerLenInDatum p dat
  | [], dat => by
    intro h
    simp [kvGetInDatum] at h
  | .item i :: rest, dat => by
    intro h
    cases dat <;> cases rest <;> simp [kvGetInDatum] at h
  | [.inl j], dat => by
    intro h
    cases dat with
    | inline kvs =>
      rcases hj : kvs[j]? with _ | kv
      · simp [kvGetInDatum, hj] at h
      · obtain ⟨hlt, -⟩ := List.getElem?_eq_some.mp hj
        refine ⟨.inline (kvs.eraseIdx j), by simp [kvRemoveInDatum, hj], ?_⟩
        simp only [ownerLenInDatum]
        exact List.length_eraseIdx_add_one hlt
    | array its => simp [kvGetInDatum] at h
    | token v tn tx => simp [kvGetInDatum] at h
  | .inl j :: c :: rest, dat => by
    intro h
    cases dat with
    | inline kvs =>
      rcases hj : kvs[j]? with _ | kv
      · simp [kvGetInDatum, hj] at h
      · have h' : (kvGetInDatum (c :: rest) kv.value.x).isSome = true := by
          simpa [kvGetInDatum, hj] using h
        obtain ⟨d', hrem, hlen⟩ := kvRemoveInDatum_ownerLen (c :: rest) kv.value.x h'
        obtain ⟨hlt, -⟩ := List.getElem?_eq_some.mp hj
        refine ⟨.inline (kvs.set j (kv.withDatum d')), ?_, ?_⟩
        · simp [kvRemoveInDatum, hj, hrem]
        · have hset : (kvs.set j (kv.withDatum d'))[j]? = some (kv.withDatum d') :=
            list_getElem?_set_self _ _ _ hlt
          simp only [ownerLenInDatum, hj, hset]
          simpa [KeyValue.withDatum, KeyValue.value, Value.x] using hlen
    | array its => simp [kvGetInDatum] at h
    | token v tn tx => simp [kvGetInDatum] at h
  | [.arr j], dat => by
    intro h
    cases dat with
    | inline kvs => simp [kvGetInDatum] at h
    | array its => simp [kvGetInDatum] at h
    | token v tn tx => simp [kvGetInDatum] at h
  | .arr j :: c :: rest, dat => by
    intro h
    cases dat with
    | inline kvs => simp [kvGetInDatum] at h
    | token v tn tx => simp [kvGetInDatum] at h
    | array its =>
      rcases hj : its[j]? with _ | el
      · simp [kvGetInDatum, hj] at h
      · cases el with
        | comments cc => simp [kvGetInDatum, hj] at h
        | value v =>
          have h' : (kvGetInDatum (c :: rest) v.x).isSome = true := by
            simpa [kvGetInDatum, hj] using h
          obtain ⟨d', hrem, hlen⟩ := kvRemoveInDatum_ownerLen (c :: rest) v.x h'
          obtain ⟨hlt, -⟩ := List.getElem?_eq_some.mp hj
          refine ⟨.array (its.set j (.value (.mk v.trailer d'))), ?_, ?_⟩
          · simp [kvRemoveInDatum, hj, hrem]
          · have hset : (its.set j (ArrayItem.value (.mk v.trailer d')))[j]?
                = some (.value (.mk v.trailer d')) := list_getElem?_set_self _ _ _ hlt
            simp only [ownerLenInDatum, hj, hset]
            simpa [Value.x] using hlen
end

theorem kvGetInItems_nil : ∀ p : List Coord, kvGetInItems p [] = none
  | [] => rfl
  | .item i :: rest => by
    cases rest <;> simp [kvGetInItems]
  | .inl j :: rest => by simp [kvGetInItems]
  | .arr j :: rest => by simp [kvGetInItems]

theorem kvGet_isSome_refValid {d : Document} {l : KVLoc}
    (h : (kvGet d l).isSome = true) : refValid d l.base = true := by
  rcases l with ⟨base, path⟩
  cases base with
  | global =>
    rcases hg : d.global with _ | s
    · rw [kvGet] at h
      simp only [refItems, hg] at h
      rw [kvGetInItems_nil] at h
      cases h
    · simp [refValid, hg]
  | sec i =>
    rcases hi : d.sections[i]? with _ | s
    · rw [kvGet] at h
      simp only [refItems, hi] at h
      rw [kvGetInItems_nil] at h
      cases h
    · obtain ⟨hlt, -⟩ := List.getElem?_eq_some.mp hi
      simp [refValid, hlt]

theorem kvRemove_spec {d : Document} {l : KVLoc}
    (h : (kvGet d l).isSome = true) :
    ∃ d', kvRemove d l = some d' ∧ kvOwnerLen d' l + 1 = kvOwnerLen d l := by
  obtain ⟨items', hrem, hlen⟩ := kvRemoveInItems_ownerLen l.path (refItems d l.base) h
  refine ⟨setRefItems d l.base items', by simp [kvRemove, hrem], ?_⟩
  rw [kvOwnerLen, kvOwnerLen,
    refItems_setRefItems d l.base items' (kvGet_isSome_refValid h)]
  exact hlen

/-! ## The `Entry` handle (modelled from the spec)

Modelled from the spec: an `Entry` wraps either a `Section` or a
`KeyValue` of the document; after a successful `Remove` it is marked
consumed and a second `Remove` fails without effect. -/

inductive ELoc where
  | sec (i : Nat)
  | kv (l : KVLoc)
deriving DecidableEq

structure Entry where
  loc : ELoc
  consumed : Bool
deriving DecidableEq

/-- An entry obtained from `Scan`/`Find` designates an existing node. -/
def entryValid (d : Document) : ELoc → Bool
  | .sec i => i < d.sections.length
  | .kv l => (kvGet d l).isSome

/-- Splices a section out of the document section list. -/
def secRemove (d : Document) (i : Nat) : Option Document :=
  if i < d.sections.length then
    some { d with sections := d.sections.eraseIdx i }
  else none

/-- Modelled from the spec: `Entry.Remove` splices the underlying
`KeyValue` or `Section` out of its owning ordered sequence and marks the
entry consumed; removing through a consumed entry fails and changes
nothing. -/
def Entry.remove (d : Document) (e : Entry) : Bool × Document × Entry :=
  if e.consumed then (false, d, e)
  else
    match e.loc with
    | .sec i =>
      match secRemove d i with
      | some d' => (true, d', { e with consumed := true })
      | none => (false, d, e)
    | .kv l =>
      match kvRemove d l with
      | some d' => (true, d', { e with consumed := true })
      | none => (false, d, e)

/-- The length of the ordered sequence owning the entry target. -/
def ownerLen (d : Document) : ELoc → Nat
  | .sec _ => d.sections.length
  | .kv l => kvOwnerLen d l

/-- C4: removing through a fresh entry obtained from `Scan`/`Find`
succeeds and splices the target out of its owning sequence exactly once —
the sequence length drops by exactly one — and a second `Remove` through
the same entry reports failure and leaves the document (and the entry)
unchanged. -/
theorem entry_remove_single_shot (d : Document) (e : Entry)
    (hv : entryValid d e.loc = true) (hc : e.consumed = false) :
    (Entry.remove d e).1 = true
    ∧ ownerLen (Entry.remove d e).2.1 e.loc + 1 = ownerLen d e.loc
    ∧ (Entry.remove (Entry.remove d e).2.1 (Entry.remove d e).2.2).1 = false
    ∧ (Entry.remove (Entry.remove d e).2.1 (Entry.remove d e).2.2).2.1
        = (Entry.remove d e).2.1
    ∧ (Entry.remove (Entry.remove d e).2.1 (Entry.remove d e).2.2).2.2
        = (Entry.remove d e).2.2 := by
  obtain ⟨loc, consumed⟩ := e
  simp only at hc
  subst hc
  cases loc with
  | sec i =>
    have hlt : i < d.sections.length := by simpa [entryValid] using hv
    have hsr : secRemove d i = some { d with sections := d.sections.eraseIdx i } := by
      simp [secRemove, hlt]
    have he1 : Entry.remove d ⟨.sec i, false⟩
        = (true, { d with sections := d.sections.eraseIdx i }, ⟨.sec i, true⟩) := by
      simp [Entry.remove, hsr]
    rw [he1]
    refine ⟨rfl, ?_, ?_, ?_, ?_⟩
    · simp only [ownerLen]
      exact List.length_eraseIdx_add_one hlt
    · simp [Entry.remove]
    · simp [Entry.remove]
    · simp [Entry.remove]
  | kv l =>
    have hg : (kvGet d l).isSome = true := by simpa [entryValid] using hv
    obtain ⟨d', hrem, hlen⟩ := kvRemove_spec hg
    have he1 : Entry.remove d ⟨.kv l, false⟩ = (true, d', ⟨.kv l, true⟩) := by
      simp [Entry.remove, hrem]
    rw [he1]
    refine ⟨rfl, ?_, ?_, ?_, ?_⟩
    · simpa [ownerLen] using hlen
    · simp [Entry.remove]
    · simp [Entry.remove]
    · simp [Entry.remove]

/-- Witness for `entry_remove_single_shot`: removing the mapping
`k = 1` from the section `[b]` of a concrete document succeeds once,
shrinks the item list from one to zero entries, and fails the second
time. -/
theorem entry_remove_single_shot_witness :
    (Entry.remove ftDoc ⟨.kv ⟨.sec 1, [.item 0]⟩, false⟩).1 = true
    ∧ ownerLen (Entry.remove ftDoc ⟨.kv ⟨.sec 1, [.item 0]⟩, false⟩).2.1
        (.kv ⟨.sec 1, [.item 0]⟩) + 1 = ownerLen ftDoc (.kv ⟨.sec 1, [.item 0]⟩)
    ∧ (Entry.remove (Entry.remove ftDoc ⟨.kv ⟨.sec 1, [.item 0]⟩, false⟩).2.1
        (Entry.remove ftDoc ⟨.kv ⟨.sec 1, [.item 0]⟩, false⟩).2.2).1 = false := by
  have h := entry_remove_single_shot ftDoc ⟨.kv ⟨.sec 1, [.item 0]⟩, false⟩
    (by decide) (by decide)
  exact ⟨h.1, h.2.1, h.2.2.1⟩

/-! ## `Scan`, `Find`, `First` (modelled from the spec)

Modelled from the spec (`tomledit.go` is absent): `Scan` walks the
document depth first in source order — the key-value bindings of the
global section, then each named section (visited as an entry itself)
followed by its bindings — recursing into inline-table and array-nested
key-values with qualified keys extended by dotted concatenation.  `Find`
filters the scan by exact key equality; `First` takes the first hit. -/

mutual
/-- Entries contributed by the children of the value datum found at
`path`; `pre` is the qualified key of the binding that owns the datum. -/
def scanKVChildren (pre : Key) (base : TabRef) (path : List Coord) :
    Datum → List (Key × ELoc)
  | .inline kvs => scanInlineList pre base path 0 kvs
  | .array its => scanArrayList pre base path 0 its
  | .token _ _ _ => []

def scanInlineList (pre : Key) (base : TabRef) (path : List Coord) (j : Nat) :
    List KeyValue → List (Key × ELoc)
  | [] => []
  | .mk _ nm (.mk _ x) :: rest =>
    (pre ++ nm, .kv ⟨base, path ++ [.inl j]⟩)
      :: (scanKVChildren (pre ++ nm) base (path ++ [.inl j]) x
          ++ scanInlineList pre base path (j + 1) rest)

def scanArrayList (pre : Key) (base : TabRef) (path : List Coord) (j : Nat) :
    List ArrayItem → List (Key × ELoc)
  | [] => []
  | .value (.mk _ x) :: rest =>
    scanKVChildren pre base (path ++ [.arr j]) x
      ++ scanArrayList pre base path (j + 1) rest
  | .comments _ :: rest => scanArrayList pre base path (j + 1) rest
end

/-- Entries contributed by an item list, with `i` the index of its first
item in the owning section. -/
def scanItemsList (pre : Key) (base : TabRef) (i : Nat) :
    List Item → List (Key × ELoc)
  | [] => []
  | .keyValue (.mk _ nm (.mk _ x)) :: rest =>
    (pre ++ nm, .kv ⟨base, [.item i]⟩)
      :: (scanKVChildren (pre ++ nm) base [.item i] x
          ++ scanItemsList pre base (i + 1) rest)
  | _ :: rest => scanItemsList pre base (i + 1) rest

/-- Entries contributed by the named sections, each visited as a section
entry followed by its bindings. -/
def scanSections (i : Nat) : List Section → List (Key × ELoc)
  | [] => []
  | s :: rest =>
    (Section.name s, .sec i)
      :: (scanItemsList (Section.name s) (.sec i) 0 s.items
          ++ scanSections (i + 1) rest)

/-- `Document.Scan`, modelled from the spec: every entry with its fully
qualified key, in source order. -/
def docScan (d : Document) : List (Key × ELoc) :=
  (match d.global with
   | none => []
   | some s => scanItemsList [] .global 0 s.items)
  ++ scanSections 0 d.sections

/-- `Document.Find`: entries whose qualified key exactly equals `k`. -/
def docFind (d : Document) (k : Key) : List ELoc :=
  (docScan d).filterMap fun ke => if Key.equals ke.1 k then some ke.2 else none

/-- `Document.First`: the first entry at `k`, or none. -/
def docFirst (d : Document) (k : Key) : Option ELoc :=
  (docFind d k).head?

/-! Resolving a path to the datum it designates, and one-step extension
lemmas used to prove that every entry the scan produces is a valid
locator. -/

mutual
/-- The datum the path leads to: the value datum of the addressed
key-value binding, or the element value of the addressed array slot. -/
def datumAtInItems : List Coord → List Item → Option Datum
  | [.item i], items =>
    match items[i]? with
    | some (.keyValue kv) => some kv.value.x
    | _ => none
  | .item i :: c :: rest, items =>
    match items[i]? with
    | some (.keyValue kv) => datumAtInDatum (c :: rest) kv.value.x
    | _ => none
  | _, _ => none

def datumAtInDatum : List Coord → Datum → Option Datum
  | [.inl j], .inline kvs => (kvs[j]?).map fun kv => kv.value.x
  | [.arr j], .array its =>
    match its[j]? with
    | some (.value v) => some v.x
    | _ => none
  | .inl j :: c :: rest, .inline kvs =>
    match kvs[j]? with
    | some kv => datumAtInDatum (c :: rest) kv.value.x
    | none => none
  | .arr j :: c :: rest, .array its =>
    match its[j]? with
    | some (.value v) => datumAtInDatum (c :: rest) v.x
    | _ => none
  | _, _ => none
end

/-- One navigation step from a datum to a nested key-value binding. -/
def stepKV (c : Coord) (dat : Datum) : Option KeyValue :=
  match c, dat with
  | .inl j, .inline kvs => kvs[j]?
  | _, _ => none

/-- One navigation step from a datum to a nested datum. -/
def stepD (c : Coord) (dat : Datum) : Option Datum :=
  match c, dat with
  | .inl j, .inline kvs => (kvs[j]?).map fun kv => kv.value.x
  | .arr j, .array its =>
    match its[j]? with
    | some (.value v) => some v.x
    | _ => none
  | _, _ => none

theorem kvGetInDatum_single (c : Coord) (dat : Datum) :
    kvGetInDatum [c] dat = stepKV c dat := by
  cases c <;> cases dat <;> simp [kvGetInDatum, stepKV]

theorem datumAtInDatum_single (c : Coord) (dat : Datum) :
    datumAtInDatum [c] dat = stepD c dat := by
  cases c <;> cases dat <;> simp [datumAtInDatum, stepD]

mutual
theorem kvGetInItems_append_one :
    ∀ (p : List Coord) (c : Coord) (items : List Item), p ≠ [] →
      kvGetInItems (p ++ [c]) items = (datumAtInItems p items).bind (stepKV c)
  | [], _, _ => fun h => absurd rfl h
  | [.item i], c, items => by
    intro _
    rcases hi : items[i]? with _ | it
    · simp [kvGetInItems, datumAtInItems, hi]
    · cases it with
      | keyValue kv => simp [kvGetInItems, datumAtInItems, hi, kvGetInDatum_single]
      | comments cc => simp [kvGetInItems, datumAtInItems, hi]
      | heading hh => simp [kvGetInItems, datumAtInItems, hi]
  | .item i :: c0 :: rest, c, items => by
    intro _
    rcases hi : items[i]? with _ | it
    · simp [kvGetInItems, datumAtInItems, hi]
    · cases it with
      | keyValue kv =>
        have hd := kvGetInDatum_append_one (c0 :: rest) c kv.value.x (by simp)
        simpa [kvGetInItems, datumAtInItems, hi] using hd
      | comments cc => simp [kvGetInItems, datumAtInItems, hi]
      | heading hh => simp [kvGetInItems, datumAtInItems, hi]
  | .inl j :: rest, c, items => by
    intro _
    cases rest <;> simp [kvGetInItems, datumAtInItems]
  | .arr j :: rest, c, items => by
    intro _
    cases rest <;> simp [kvGetInItems, datumAtInItems]

theorem kvGetInDatum_append_one :
    ∀ (p : List Coord) (c : Coord) (dat : Datum), p ≠ [] →
      kvGetInDatum (p ++ [c]) dat = (datumAtInDatum p dat).bind (stepKV c)
  | [], _, _ => fun h => absurd rfl h
  | [.inl j], c, dat => by
    intro _
    cases dat with
    | inline kvs =>
      rcases hj : kvs[j]? with _ | kv
      · simp [kvGetInDatum, datumAtInDatum, hj]
      · simp [kvGetInDatum, datumAtInDatum, hj, kvGetInDatum_single]
    | array its => cases c <;> simp [kvGetInDatum, datumAtInDatum]
    | token v tn tx => cases c <;> simp [kvGetInDatum, datumAtInDatum]
  | .inl j :: c0 :: rest, c, dat => by
    intro _
    cases dat with
    | inline kvs =>
      rcases hj : kvs[j]? with _ | kv
      · simp [kvGetInDatum, datumAtInDatum, hj]
      · have hd := kvGetInDatum_append_one (c0 :: rest) c kv.value.x (by simp)
        simpa [kvGetInDatum, datumAtInDatum, hj] using hd
    | array its => simp [kvGetInDatum, datumAtInDatum]
    | token v tn tx => simp [kvGetInDatum, datumAtInDatum]
  | [.arr j], c, dat => by
    intro _
    cases dat with
    | inline kvs => cases c <;> simp [kvGetInDatum, datumAtInDatum]
    | array its =>
      rcases hj : its[j]? with _ | el
      · simp [kvGetInDatum, datumAtInDatum, hj]
      · cases el with
        | comments cc => simp [kvGetInDatum, datumAtInDatum, hj]
        | value v => simp [kvGetInDatum, datumAtInDatum, hj, kvGetInDatum_single]
    | token v tn tx => cases c <;> simp [kvGetInDatum, datumAtInDatum]
  | .arr j :: c0 :: rest, c, dat => by
    intro _
    cases dat with
    | inline kvs => simp [kvGetInDatum, datumAtInDatum]
    | array its =>
      rcases hj : its[j]? with _ | el
      · simp [kvGetInDatum, datumAtInDatum, hj]
      · cases el with
        | comments cc => simp [kvGetInDatum, datumAtInDatum, hj]
        | value v =>
          have hd := kvGetInDatum_append_one (c0 :: rest) c v.x (by simp)
          simpa [kvGetInDatum, datumAtInDatum, hj] using hd
    | token v tn tx => simp [kvGetInDatum, datumAtInDatum]
  | .item i :: rest, c, dat => by
    intro _
    cases dat <;> cases rest <;> simp [kvGetInDatum, datumAtInDatum]
end

mutual
theorem datumAtInItems_append_one :
    ∀ (p : List Coord) (c : Coord) (items : List Item), p ≠ [] →
      datumAtInItems (p ++ [c]) items = (datumAtInItems p items).bind (stepD c)
  | [], _, _ => fun h => absurd rfl h
  | [.item i], c, items => by
    intro _
    rcases hi : items[i]? with _ | it
    · simp [datumAtInItems, hi]
    · cases it with
      | keyValue kv => simp [datumAtInItems, hi, datumAtInDatum_single]
      | comments cc => simp [datumAtInItems, hi]
      | heading hh => simp [datumAtInItems, hi]
  | .item i :: c0 :: rest, c, items => by
    intro _
    rcases hi : items[i]? with _ | it
    · simp [datumAtInItems, hi]
    · cases it with
      | keyValue kv =>
        have hd := datumAtInDatum_append_one (c0 :: rest) c kv.value.x (by simp)
        simpa [datumAtInItems, hi] using hd
      | comments cc => simp [datumAtInItems, hi]
      | heading hh => simp [datumAtInItems, hi]
  | .inl j :: rest, c, items => by
    intro _
    cases rest <;> simp [datumAtInItems]
  | .arr j :: rest, c, items => by
    intro _
    cases rest <;> simp [datumAtInItems]

theorem datumAtInDatum_append_one :
    ∀ (p : List Coord) (c : Coord) (dat : Datum), p ≠ [] →
      datumAtInDatum (p ++ [c]) dat = (datumAtInDatum p dat).bind (stepD c)
  | [], _, _ => fun h => absurd rfl h
  | [.inl j], c, dat => by
    intro _
    cases dat with
    | inline kvs =>
      rcases hj : kvs[j]? with _ | kv
      · simp [datumAtInDatum, hj]
      · simp [datumAtInDatum, hj, datumAtInDatum_single]
    | array its => cases c <;> simp [datumAtInDatum]
    | token v tn tx => cases c <;> simp [datumAtInDatum]
  | .inl j :: c0 :: rest, c, dat => by
    intro _
    cases dat with
    | inline kvs =>
      rcases hj : kvs[j]? with _ | kv
      · simp [datumAtInDatum, hj]
      · have hd := datumAtInDatum_append_one (c0 :: rest) c kv.value.x (by simp)
        simpa [datumAtInDatum, hj] using hd
    | array its => simp [datumAtInDatum]
    | token v tn tx => simp [datumAtInDatum]
  | [.arr j], c, dat => by
    intro _
    cases dat with
    | inline kvs => cases c <;> simp [datumAtInDatum]
    | array its =>
      rcases hj : its[j]? with _ | el
      · simp [datumAtInDatum, hj]
      · cases el with
        | comments cc => simp [datumAtInDatum, hj]
        | value v => simp [datumAtInDatum, hj, datumAtInDatum_single]
    | token v tn tx => cases c <;> simp [datumAtInDatum]
  | .arr j :: c0 :: rest, c, dat => by
    intro _
    cases dat with
    | inline kvs => simp [datumAtInDatum]
    | array its =>
      rcases hj : its[j]? with _ | el
      · simp [datumAtInDatum, hj]
      · cases el with
        | comments cc => simp [datumAtInDatum, hj]
        | value v =>
          have hd := datumAtInDatum_append_one (c0 :: rest) c v.x (by simp)
          simpa [datumAtInDatum, hj] using hd
    | token v tn tx => simp [datumAtInDatum]
  | .item i :: rest, c, dat => by
    intro _
    cases dat <;> cases rest <;> simp [datumAtInDatum]
end

/-- A scan entry below an item list is a key-value locator into that list
that resolves successfully. -/
def scanEntryOK (full : List Item) (base : TabRef) (ke : Key × ELoc) : Prop :=
  ∃ l : KVLoc, ke.2 = .kv l ∧ l.base = base ∧ (kvGetInItems l.path full).isSome = true

mutual
theorem scanKVChildren_valid :
    ∀ (dat : Datum) (pre : Key) (path : List Coord) (full : List Item) (base : TabRef),
      path ≠ [] → datumAtInItems path full = some dat →
      ∀ ke ∈ scanKVChildren pre base path dat, scanEntryOK full base ke
  | .inline kvs, pre, path, full, base => by
    intro hne hat ke hmem
    rw [scanKVChildren] at hmem
    exact scanInlineList_valid kvs kvs pre path 0 full base hne hat
      (fun jj => by simp) ke hmem
  | .array its, pre, path, full, base => by
    intro hne hat ke hmem
    rw [scanKVChildren] at hmem
    exact scanArrayList_valid its its pre path 0 full base hne hat
      (fun jj => by simp) ke hmem
  | .token v tn tx, pre, path, full, base => by
    intro hne hat ke hmem
    rw [scanKVChildren] at hmem
    cases hmem

theorem scanInlineList_valid :
    ∀ (kvs fullKvs : List KeyValue) (pre : Key) (path : List Coord) (j : Nat)
      (full : List Item) (base : TabRef),
      path ≠ [] → datumAtInItems path full = some (.inline fullKvs) →
      (∀ jj : Nat, fullKvs[j + jj]? = kvs[jj]?) →
      ∀ ke ∈ scanInlineList pre base path j kvs, scanEntryOK full base ke
  | [], fullKvs, pre, path, j, full, base => by
    intro hne hat hinv ke hmem
    rw [scanInlineList] at hmem
    cases hmem
  | .mk blk nm (.mk tr x) :: rest, fullKvs, pre, path, j, full, base => by
    intro hne hat hinv ke hmem
    rw [scanInlineList] at hmem
    have hj : fullKvs[j]? = some (.mk blk nm (.mk tr x)) := by
      have := hinv 0
      simpa using this
    rcases List.mem_cons.mp hmem with rfl | hmem
    · refine ⟨⟨base, path ++ [.inl j]⟩, rfl, rfl, ?_⟩
      rw [kvGetInItems_append_one path (.inl j) full hne, hat]
      simp [stepKV, hj]
    · rcases List.mem_append.mp hmem with hmem | hmem
      · refine scanKVChildren_valid x (pre ++ nm) (path ++ [.inl j]) full base
          (by simp) ?_ ke hmem
        rw [datumAtInItems_append_one path (.inl j) full hne, hat]
        simp [stepD, hj, KeyValue.value, Value.x]
      · refine scanInlineList_valid rest fullKvs pre path (j + 1) full base hne hat
          ?_ ke hmem
        intro jj
        have := hinv (jj + 1)
        have harith : j + (jj + 1) = j + 1 + jj := by omega
        rw [harith] at this
        simpa using this

theorem scanArrayList_valid :
    ∀ (its fullIts : List ArrayItem) (pre : Key) (path : List Coord) (j : Nat)
      (full : List Item) (base : TabRef),
      path ≠ [] → datumAtInItems path full = some (.array fullIts) →
      (∀ jj : Nat, fullIts[j + jj]? = its[jj]?) →
      ∀ ke ∈ scanArrayList pre base path j its, scanEntryOK full base ke
  | [], fullIts, pre, path, j, full, base => by
    intro hne hat hinv ke hmem
    rw [scanArrayList] at hmem
    cases hmem
  | .value (.mk tr x) :: rest, fullIts, pre, path, j, full, base => by
    intro hne hat hinv ke hmem
    rw [scanArrayList] at hmem
    have hj : fullIts[j]? = some (.value (.mk tr x)) := by
      have := hinv 0
      simpa using this
    rcases List.mem_append.mp hmem with hmem | hmem
    · refine scanKVChildren_valid x pre (path ++ [.arr j]) full base
        (by simp) ?_ ke hmem
      rw [datumAtInItems_append_one path (.arr j) full hne, hat]
      simp [stepD, hj, Value.x]
    · refine scanArrayList_valid rest fullIts pre path (j + 1) full base hne hat
        ?_ ke hmem
      intro jj
      have := hinv (jj + 1)
      have harith : j + (jj + 1) = j + 1 + jj := by omega
      rw [harith] at this
      simpa using this
  | .comments cc :: rest, fullIts, pre, path, j, full, base => by
    intro hne hat hinv ke hmem
    rw [scanArrayList] at hmem
    refine scanArrayList_valid rest fullIts pre path (j + 1) full base hne hat
      ?_ ke hmem
    intro jj
    have := hinv (jj + 1)
    have harith : j + (jj + 1) = j + 1 + jj := by omega
    rw [harith] at this
    simpa using this
end

theorem scanItemsList_valid :
    ∀ (items full : List Item) (pre : Key) (base : TabRef) (i : Nat),
      (∀ jj : Nat, full[i + jj]? = items[jj]?) →
      ∀ ke ∈ scanItemsList pre base i items, scanEntryOK full base ke
  | [], full, pre, base, i => by
    intro hinv ke hmem
    rw [scanItemsList] at hmem
    cases hmem
  | .keyValue (.mk blk nm (.mk tr x)) :: rest, full, pre, base, i => by
    intro hinv ke hmem
    rw [scanItemsList] at hmem
    have hi : full[i]? = some (.keyValue (.mk blk nm (.mk tr x))) := by
      have := hinv 0
      simpa using this
    rcases List.mem_cons.mp hmem with rfl | hmem
    · refine ⟨⟨base, [.item i]⟩, rfl, rfl, ?_⟩
      simp [kvGetInItems, hi]
    · rcases List.mem_append.mp hmem with hmem | hmem
      · refine scanKVChildren_valid x (pre ++ nm) [.item i] full base
          (by simp) ?_ ke hmem
        simp [datumAtInItems, hi, KeyValue.value, Value.x]
      · refine scanItemsList_valid rest full pre base (i + 1) ?_ ke hmem
        intro jj
        have := hinv (jj + 1)
        have harith : i + (jj + 1) = i + 1 + jj := by omega
        rw [harith] at this
        simpa using this
  | .comments cc :: rest, full, pre, base, i => by
    intro hinv ke hmem
    rw [scanItemsList] at hmem
    · refine scanItemsList_valid rest full pre base (i + 1) ?_ ke hmem
      intro jj
      have := hinv (jj + 1)
      have harith : i + (jj + 1) = i + 1 + jj := by omega
      rw [harith] at this
      simpa using this
    · intro _ _ _ _ h
      cases h
  | .heading hh :: rest, full, pre, base, i => by
    intro hinv ke hmem
    rw [scanItemsList] at hmem
    · refine scanItemsList_valid rest full pre base (i + 1) ?_ ke hmem
      intro jj
      have := hinv (jj + 1)
      have harith : i + (jj + 1) = i + 1 + jj := by omega
      rw [harith] at this
      simpa using this
    · intro _ _ _ _ h
      cases h

theorem scanSections_valid :
    ∀ (ss : List Section) (d : Document) (i : Nat),
      (∀ jj : Nat, d.sections[i + jj]? = ss[jj]?) →
      ∀ ke ∈ scanSections i ss, entryValid d ke.2 = true
  | [], d, i => by
    intro hinv ke hmem
    rw [scanSections] at hmem
    cases hmem
  | s :: rest, d, i => by
    intro hinv ke hmem
    rw [scanSections] at hmem
    have hi : d.sections[i]? = some s := by
      have := hinv 0
      simpa using this
    rcases List.mem_cons.mp hmem with rfl | hmem
    · obtain ⟨hlt, -⟩ := List.getElem?_eq_some.mp hi
      simp [entryValid, hlt]
    · rcases List.mem_append.mp hmem with hmem | hmem
      · have hfull : refItems d (.sec i) = s.items := by
          simp [refItems, hi]
        obtain ⟨l, hke, hbase, hsome⟩ :=
          scanItemsList_valid s.items s.items (Section.name s) (.sec i) 0
            (fun jj => by simp) ke hmem
        rw [hke]
        simp only [entryValid, kvGet, hbase, hfull]
        exact hsome
      · refine scanSections_valid rest d (i + 1) ?_ ke hmem
        intro jj
        have := hinv (jj + 1)
        have harith : i + (jj + 1) = i + 1 + jj := by omega
        rw [harith] at this
        simpa using this

/-- Every entry produced by `Scan` is a valid locator of its document. -/
theorem docScan_valid (d : Document) :
    ∀ ke ∈ docScan d, entryValid d ke.2 = true := by
  intro ke hmem
  rw [docScan] at hmem
  rcases List.mem_append.mp hmem with hmem | hmem
  · rcases hg : d.global with _ | s
    · rw [hg] at hmem
      cases hmem
    · rw [hg] at hmem
      have hfull : refItems d .global = s.items := by
        simp [refItems, hg]
      obtain ⟨l, hke, hbase, hsome⟩ :=
        scanItemsList_valid s.items s.items [] .global 0 (fun jj => by simp) ke hmem
      rw [hke]
      simp only [entryValid, kvGet, hbase, hfull]
      exact hsome
  · exact scanSections_valid d.sections d 0 (fun jj => by simp) ke hmem

theorem docFirst_valid {d : Document} {k : Key} {e : ELoc}
    (h : docFirst d k = some e) : entryValid d e = true := by
  rw [docFirst] at h
  have hmem : e ∈ docFind d k := by
    cases hf : docFind d k with
    | nil => rw [hf] at h; cases h
    | cons a rest =>
      rw [hf] at h
      simp only [List.head?_cons, Option.some.injEq] at h
      rw [← h] at *
      exact List.mem_cons_self a rest
  rw [docFind] at hmem
  obtain ⟨ke, hkemem, hcond⟩ := List.mem_filterMap.mp hmem
  have : ke.2 = e := by
    by_cases hc : Key.equals ke.1 k = true
    · simpa [hc] using hcond
    · simp [hc] at hcond
  rw [← this]
  exact docScan_valid d ke hkemem

mutual
theorem kvModifyInItems_effect (f : KeyValue → Option KeyValue) :
    ∀ (p : List Coord) (items : List Item) (kv kv2 : KeyValue),
      kvGetInItems p items = some kv → f kv = some kv2 →
      ∃ items', kvModifyInItems f p items = some items'
        ∧ kvGetInItems p items' = some kv2
  | [], items, kv, kv2 => by
    intro h _
    simp [kvGetInItems] at h
  | [.item i], items, kv, kv2 => by
    intro h hf
    rcases hi : items[i]? with _ | it
    · simp [kvGetInItems, hi] at h
    · cases it with
      | keyValue kv0 =>
        have hkv : kv0 = kv := by simpa [kvGetInItems, hi] using h
        subst hkv
        obtain ⟨hlt, -⟩ := List.getElem?_eq_some.mp hi
        refine ⟨items.set i (.keyValue kv2), ?_, ?_⟩
        · simp [kvModifyInItems, hi, hf]
        · have hset : (items.set i (.keyValue kv2))[i]? = some (.keyValue kv2) :=
            list_getElem?_set_self _ _ _ hlt
          simp [kvGetInItems, hset]
      | comments cc => simp [kvGetInItems, hi] at h
      | heading hh => simp [kvGetInItems, hi] at h
  | .item i :: c :: rest, items, kv, kv2 => by
    intro h hf
    rcases hi : items[i]? with _ | it
    · simp [kvGetInItems, hi] at h
    · cases it with
      | keyValue kv0 =>
        have h' : kvGetInDatum (c :: rest) kv0.value.x = some kv := by
          simpa [kvGetInItems, hi] using h
        obtain ⟨d', hmod, hget⟩ := kvModifyInDatum_effect f (c :: rest) kv0.value.x kv kv2 h' hf
        obtain ⟨hlt, -⟩ := List.getElem?_eq_some.mp hi
        refine ⟨items.set i (.keyValue (kv0.withDatum d')), ?_, ?_⟩
        · simp [kvModifyInItems, hi, hmod]
        · have hset : (items.set i (.keyValue (kv0.withDatum d')))[i]?
              = some (.keyValue (kv0.withDatum d')) := list_getElem?_set_self _ _ _ hlt
          simp only [kvGetInItems, hset]
          have hx : (kv0.withDatum d').value.x = d' := rfl
          rw [hx]
          exact hget
      | comments cc => simp [kvGetInItems, hi] at h
      | heading hh => simp [kvGetInItems, hi] at h
  | .inl j :: rest, items, kv, kv2 => by
    intro h _
    cases rest <;> simp [kvGetInItems] at h
  | .arr j :: rest, items, kv, kv2 => by
    intro h _
    cases rest <;> simp [kvGetInItems] at h

theorem kvModifyInDatum_effect (f : KeyValue → Option KeyValue) :
    ∀ (p : List Coord) (dat : Datum) (kv kv2 : KeyValue),
      kvGetInDatum p dat = some kv → f kv = some kv2 →
      ∃ dat', kvModifyInDatum f p dat = some dat'
        ∧ kvGetInDatum p dat' = some kv2
  | [], dat, kv, kv2 => by
    intro h _
    simp [kvGetInDatum] at h
  | .item i :: rest, dat, kv, kv2 => by
    intro h _
    cases dat <;> cases rest <;> simp [kvGetInDatum] at h
  | [.inl j], dat, kv, kv2 => by
    intro h hf
    cases dat with
    | inline kvs =>
      have hj : kvs[j]? = some kv := by simpa [kvGetInDatum] using h
      obtain ⟨hlt, -⟩ := List.getElem?_eq_some.mp hj
      refine ⟨.inline (kvs.set j kv2), ?_, ?_⟩
      · simp [kvModifyInDatum, hj, hf]
      · have hset : (kvs.set j kv2)[j]? = some kv2 := list_getElem?_set_self _ _ _ hlt
        simp [kvGetInDatum, hset]
    | array its => simp [kvGetInDatum] at h
    | token v tn tx => simp [kvGetInDatum] at h
  | .inl j :: c :: rest, dat, kv, kv2 => by
    intro h hf
    cases dat with
    | inline kvs =>
      rcases hj : kvs[j]? with _ | kv0
      · simp [kvGetInDatum, hj] at h
      · have h' : kvGetInDatum (c :: rest) kv0.value.x = some kv := by
          simpa [kvGetInDatum, hj] using h
        obtain ⟨d', hmod, hget⟩ := kvModifyInDatum_effect f (c :: rest) kv0.value.x kv kv2 h' hf
        obtain ⟨hlt, -⟩ := List.getElem?_eq_some.mp hj
        refine ⟨.inline (kvs.set j (kv0.withDatum d')), ?_, ?_⟩
        · simp [kvModifyInDatum, hj, hmod]
        · have hset : (kvs.set j (kv0.withDatum d'))[j]? = some (kv0.withDatum d') :=
            list_getElem?_set_self _ _ _ hlt
          simp only [kvGetInDatum, hset]
          have hx : (kv0.withDatum d').value.x = d' := rfl
          rw [hx]
          exact hget
    | array its => simp [kvGetInDatum] at h
    | token v tn tx => simp [kvGetInDatum] at h
  | [.arr j], dat, kv, kv2 => by
    intro h _
    cases dat <;> simp [kvGetInDatum] at h
  | .arr j :: c :: rest, dat, kv, kv2 => by
    intro h hf
    cases dat with
    | inline kvs => simp [kvGetInDatum] at h
    | token v tn tx => simp [kvGetInDatum] at h
    | array its =>
      rcases hj : its[j]? with _ | el
      · simp [kvGetInDatum, hj] at h
      · cases el with
        | comments cc => simp [kvGetInDatum, hj] at h
        | value v =>
          have h' : kvGetInDatum (c :: rest) v.x = some kv := by
            simpa [kvGetInDatum, hj] using h
          obtain ⟨d', hmod, hget⟩ := kvModifyInDatum_effect f (c :: rest) v.x kv kv2 h' hf
          obtain ⟨hlt, -⟩ := List.getElem?_eq_some.mp hj
          refine ⟨.array (its.set j (.value (.mk v.trailer d'))), ?_, ?_⟩
          · simp [kvModifyInDatum, hj, hmod]
          · have hset : (its.set j (ArrayItem.value (.mk v.trailer d')))[j]?
                = some (.value (.mk v.trailer d')) := list_getElem?_set_self _ _ _ hlt
            simp only [kvGetInDatum, hset]
            have hx : (Value.mk v.trailer d').x = d' := rfl
            rw [hx]
            exact hget
end

theorem kvModify_spec {d : Document} {l : KVLoc} {f : KeyValue → Option KeyValue}
    {kv kv2 : KeyValue} (h : kvGet d l = some kv) (hf : f kv = some kv2) :
    ∃ d', kvModify d l f = some d' ∧ kvGet d' l = some kv2 := by
  obtain ⟨items', hmod, hget⟩ :=
    kvModifyInItems_effect f l.path (refItems d l.base) kv kv2 h hf
  have hvalid : refValid d l.base = true := by
    have hks : (kvGet d l).isSome = true := by rw [h]; rfl
    exact kvGet_isSome_refValid hks
  refine ⟨setRefItems d l.base items', by simp [kvModify, hmod], ?_⟩
  rw [kvGet, refItems_setRefItems d l.base items' hvalid]
  exact hget

/-! ## `MoveKey` (transform package)

`MoveKey` is translated from the transform source; the document layer it
calls (`First`, `Entry.Remove`, the aliasing pointer writes) is the
spec-modelled machinery above.  Removing the source shifts list indices,
so the locator of the destination — a pointer in Go — is re-addressed by
`adjustPath`; a destination inside the removed subtree corresponds to a
Go pointer into the detached node, whose mutation is invisible in the
document. -/

/-- Adjusts a single coordinate for the removal of the element at `pc` of
the same list: the removed slot itself is gone (`none`), later slots
shift down by one. -/
def adjustHead (pc qc : Coord) : Option Coord :=
  match pc, qc with
  | .item i, .item j =>
    if j = i then none else if i < j then some (.item (j - 1)) else some (.item j)
  | .inl i, .inl j =>
    if j = i then none else if i < j then some (.inl (j - 1)) else some (.inl j)
  | .arr i, .arr j =>
    if j = i then none else if i < j then some (.arr (j - 1)) else some (.arr j)
  | _, qc => some qc

/-- Re-addresses path `q` after the node at path `p` (same base) has been
spliced out; `none` when `q` lies at or below the removed node. -/
def adjustPath : List Coord → List Coord → Option (List Coord)
  | [pc], qc :: qrest => (adjustHead pc qc).map fun qc' => qc' :: qrest
  | [_], [] => some []
  | pc :: ps, qc :: qrest =>
    if qc = pc then (adjustPath ps qrest).map fun qs => qc :: qs
    else some (qc :: qrest)
  | _ :: _, [] => some []
  | [], _ => none

def adjustLoc (p q : KVLoc) : Option KVLoc :=
  if p.base = q.base then (adjustPath p.path q.path).map fun pa => ⟨q.base, pa⟩
  else some q

/-- `Entry.IsInline`: the located binding exists and its value is an
inline table. -/
def isInlineLoc (d : Document) (l : KVLoc) : Bool :=
  match kvGet d l with
  | some kv =>
    match kv.value.x with
    | .inline _ => true
    | _ => false
  | none => false

def defaultKV : KeyValue := .mk [] [] (.mk "" (.token true "" ""))

/-- `dst.Items = append(dst.Items, src.KeyValue)` on the section at
index `i`. -/
def appendToSec (d : Document) (i : Nat) (kv : KeyValue) : Document :=
  match d.sections[i]? with
  | some s =>
    { d with sections := d.sections.set i { s with items := s.items ++ [.keyValue kv] } }
  | none => d

/-- Appends to the inline table stored in a binding. -/
def inlineAppend (newKv dst : KeyValue) : Option KeyValue :=
  match dst.value.x with
  | .inline kvs => some (dst.withDatum (.inline (kvs ++ [newKv])))
  | _ => none

/-- `dst.Value.X = append(v, src.KeyValue)` on the binding at `l`; a
locator into the detached subtree resolves to nothing and the document is
unchanged, as the Go write then lands on an unreachable node. -/
def appendToInline (d : Document) (l : KVLoc) (newKv : KeyValue) : Document :=
  match kvModify d l (inlineAppend newKv) with
  | some d' => d'
  | none => d

inductive MKErr where
  | noMapping
  | rootNotFound
  | notATable
deriving DecidableEq

/-- `MoveKey` from the transform package.  The result carries the error
(`none` on success), the document, and the final state of the source
key-value node — the node the Go `src` entry keeps aliasing — whose name
has been set to `newKey` once the source checks passed. -/
def MoveKey (oldKey rootKey newKey : Key) (d : Document) :
    Option MKErr × Document × Option KeyValue :=
  match docFirst d oldKey with
  | none => (some .noMapping, d, none)
  | some (.sec _) => (some .noMapping, d, none)
  | some (.kv p) =>
    match docFirst d rootKey with
    | none => (some .rootNotFound, d, none)
    | some dst =>
      let kv := (kvGet d p).getD defaultKV
      let d1 := (kvRemove d p).getD d
      let kv' := kv.withName newKey
      match dst with
      | .sec i => (none, appendToSec d1 i kv', some kv')
      | .kv q =>
        if isInlineLoc d q then
          match adjustLoc p q with
          | none => (none, d1, some kv')
          | some q' => (none, appendToInline d1 q' kv', some kv')
        else (some .notATable, d1, some kv')

/-- The key-value list of the inline table stored at a locator. -/
def inlineKVsAt (d : Document) (l : KVLoc) : Option (List KeyValue) :=
  (kvGet d l).bind fun kv =>
    match kv.value.x with
    | .inline kvs => some kvs
    | _ => none

theorem setRefItems_sections_length (d : Document) (b : TabRef) (its : List Item) :
    (setRefItems d b its).sections.length = d.sections.length := by
  cases b with
  | global =>
    rcases hg : d.global with _ | s <;> simp [setRefItems, hg]
  | sec i =>
    rcases hi : d.sections[i]? with _ | s <;> simp [setRefItems, hi]

theorem kvRemove_getD_sections_length (d : Document) (p : KVLoc) :
    ((kvRemove d p).getD d).sections.length = d.sections.length := by
  rcases hr : kvRemove d p with _ | d'
  · simp
  · rw [kvRemove] at hr
    rcases hri : kvRemoveInItems p.path (refItems d p.base) with _ | items'
    · rw [hri] at hr
      cases hr
    · rw [hri] at hr
      simp only [Option.map_some', Option.some.injEq] at hr
      rw [← hr]
      simp [setRefItems_sections_length]

theorem appendToSec_refItems {d : Document} {i : Nat} (kv : KeyValue)
    (h : i < d.sections.length) :
    refItems (appendToSec d i kv) (.sec i) = refItems d (.sec i) ++ [.keyValue kv] := by
  have hi : d.sections[i]? = some d.sections[i] := List.getElem?_eq_getElem h
  have hset : (d.sections.set i
        { d.sections[i] with items := d.sections[i].items ++ [.keyValue kv] })[i]?
      = some { d.sections[i] with items := d.sections[i].items ++ [.keyValue kv] } :=
    list_getElem?_set_self _ _ _ h
  simp [appendToSec, refItems, hi, hset]

theorem appendToInline_effect {d : Document} {l : KVLoc} {kvs1 : List KeyValue}
    (newKv : KeyValue) (h : inlineKVsAt d l = some kvs1) :
    inlineKVsAt (appendToInline d l newKv) l = some (kvs1 ++ [newKv]) := by
  rcases hg : kvGet d l with _ | kv0
  · rw [inlineKVsAt, hg] at h
    cases h
  · rw [inlineKVsAt, hg] at h
    simp only [Option.some_bind] at h
    rcases hx : kv0.value.x with hv | its | kvs
    · rw [hx] at h
      cases h
    · rw [hx] at h
      cases h
    · rw [hx] at h
      simp only [Option.some.injEq] at h
      subst h
      have hf : inlineAppend newKv kv0 = some (kv0.withDatum (.inline (kvs ++ [newKv]))) := by
        simp [inlineAppend, hx]
      obtain ⟨d', hmod, hget⟩ := kvModify_spec hg hf
      rw [appendToInline, hmod, inlineKVsAt, hget]
      simp only [Option.some_bind]
      have hx' : (kv0.withDatum (.inline (kvs ++ [newKv]))).value.x
          = .inline (kvs ++ [newKv]) := rfl
      rw [hx']

/-- C6: `MoveKey` errs exactly when the first entry at `oldKey` is absent
or not a key-value mapping, or no entry exists at `rootKey`, or the entry
at `rootKey` is neither a section nor an inline-table mapping (each error
classified); otherwise it removes the mapping at `oldKey` — its owning
sequence shrinks by one — renames it to the new leaf key, and appends it
as the last element of the target section's items or of the target inline
table's key-value list (at the destination's post-removal address). -/
theorem moveKey_spec (oldKey rootKey newKey : Key) (d : Document) :
    ((MoveKey oldKey rootKey newKey d).1 = none ↔
       ((∃ p, docFirst d oldKey = some (.kv p))
        ∧ ((∃ i, docFirst d rootKey = some (.sec i))
           ∨ (∃ q, docFirst d rootKey = some (.kv q) ∧ isInlineLoc d q = true))))
    ∧ ((MoveKey oldKey rootKey newKey d).1 = some .noMapping ↔
       (docFirst d oldKey = none ∨ ∃ i, docFirst d oldKey = some (.sec i)))
    ∧ ((MoveKey oldKey rootKey newKey d).1 = some .rootNotFound ↔
       ((∃ p, docFirst d oldKey = some (.kv p)) ∧ docFirst d rootKey = none))
    ∧ ((MoveKey oldKey rootKey newKey d).1 = some .notATable ↔
       (∃ p q, docFirst d oldKey = some (.kv p) ∧ docFirst d rootKey = some (.kv q)
          ∧ isInlineLoc d q = false))
    ∧ (∀ p, docFirst d oldKey = some (.kv p) →
        (∀ e, docFirst d rootKey = some e →
          kvOwnerLen ((kvRemove d p).getD d) p + 1 = kvOwnerLen d p
          ∧ (MoveKey oldKey rootKey newKey d).2.2
              = some (((kvGet d p).getD defaultKV).withName newKey)))
    ∧ (∀ p i, docFirst d oldKey = some (.kv p) →
        docFirst d rootKey = some (.sec i) →
        refItems (MoveKey oldKey rootKey newKey d).2.1 (.sec i)
          = refItems ((kvRemove d p).getD d) (.sec i)
            ++ [.keyValue (((kvGet d p).getD defaultKV).withName newKey)])
    ∧ (∀ p q, docFirst d oldKey = some (.kv p) →
        docFirst d rootKey = some (.kv q) → isInlineLoc d q = true →
        ((adjustLoc p q = none →
            (MoveKey oldKey rootKey newKey d).2.1 = (kvRemove d p).getD d)
         ∧ (∀ q' kvs1, adjustLoc p q = some q' →
             inlineKVsAt ((kvRemove d p).getD d) q' = some kvs1 →
             inlineKVsAt (MoveKey oldKey rootKey newKey d).2.1 q'
               = some (kvs1 ++ [((kvGet d p).getD defaultKV).withName newKey])))) := by
  rcases hp : docFirst d oldKey with _ | el
  · have hMK : MoveKey oldKey rootKey newKey d = (some .noMapping, d, none) := by
      simp [MoveKey, hp]
    rw [hMK]
    refine ⟨by simp, by simp, by simp, by simp, ?_, ?_, ?_⟩
    · intro p hp'
      cases hp'
    · intro p i hp'
      cases hp'
    · intro p q hp'
      cases hp'
  · cases el with
    | sec si =>
      have hMK : MoveKey oldKey rootKey newKey d = (some .noMapping, d, none) := by
        simp [MoveKey, hp]
      rw [hMK]
      refine ⟨by simp, by simp, by simp, by simp, ?_, ?_, ?_⟩
      · intro p hp'
        simp at hp'
      · intro p i hp'
        simp at hp'
      · intro p q hp'
        simp at hp'
    | kv p0 =>
      have hpv : (kvGet d p0).isSome = true := by
        simpa [entryValid] using docFirst_valid hp
      obtain ⟨drem, hrem, hremlen⟩ := kvRemove_spec hpv
      have hd1 : (kvRemove d p0).getD d = drem := by rw [hrem]; rfl
      rcases hq : docFirst d rootKey with _ | dst
      · have hMK : MoveKey oldKey rootKey newKey d = (some .rootNotFound, d, none) := by
          simp [MoveKey, hp, hq]
        rw [hMK]
        refine ⟨by simp, by simp, ?_, by simp, ?_, ?_, ?_⟩
        · simp only [Option.some.injEq, true_iff, reduceCtorEq]
          exact ⟨⟨p0, rfl⟩, trivial⟩
        · intro p hp' e he
          cases he
        · intro p i hp' hq'
          cases hq'
        · intro p q hp' hq'
          cases hq'
      · cases dst with
        | sec i0 =>
          have hsv : i0 < d.sections.length := by
            simpa [entryValid] using docFirst_valid hq
          have hMK : MoveKey oldKey rootKey newKey d
              = (none, appendToSec ((kvRemove d p0).getD d) i0
                  (((kvGet d p0).getD defaultKV).withName newKey),
                 some (((kvGet d p0).getD defaultKV).withName newKey)) := by
            simp [MoveKey, hp, hq]
          rw [hMK]
          refine ⟨?_, by simp, by simp, by simp, ?_, ?_, ?_⟩
          · simp only [true_iff]
            exact ⟨⟨p0, rfl⟩, Or.inl ⟨i0, rfl⟩⟩
          · intro p hp' e he
            have hpp : p = p0 := by
              have := (Option.some.inj hp').symm
              exact (ELoc.kv.inj this)
            subst hpp
            exact ⟨by rw [hd1]; exact hremlen, rfl⟩
          · intro p i hp' hq'
            have hpp : p = p0 := ELoc.kv.inj (Option.some.inj hp').symm
            have hii : i = i0 := (ELoc.sec.inj (Option.some.inj hq')).symm
            subst hpp
            subst hii
            have hlen1 : i < ((kvRemove d p).getD d).sections.length := by
              rw [kvRemove_getD_sections_length]
              exact hsv
            exact appendToSec_refItems _ hlen1
          · intro p q hp' hq'
            simp at hq'
        | kv q0 =>
          rcases hil : isInlineLoc d q0 with _ | _
          · have hMK : MoveKey oldKey rootKey newKey d
                = (some .notATable, (kvRemove d p0).getD d,
                   some (((kvGet d p0).getD defaultKV).withName newKey)) := by
              simp [MoveKey, hp, hq, hil]
            rw [hMK]
            refine ⟨by simp [hil], by simp, by simp, ?_, ?_, ?_, ?_⟩
            · simp only [Option.some.injEq, true_iff, reduceCtorEq]
              exact ⟨p0, q0, rfl, rfl, hil⟩
            · intro p hp' e he
              have hpp : p = p0 := ELoc.kv.inj (Option.some.inj hp').symm
              subst hpp
              exact ⟨by rw [hd1]; exact hremlen, rfl⟩
            · intro p i hp' hq'
              simp at hq'
            · intro p q hp' hq' hil'
              have hqq : q = q0 := ELoc.kv.inj (Option.some.inj hq').symm
              subst hqq
              rw [hil] at hil'
              cases hil'
          · rcases hadj : adjustLoc p0 q0 with _ | q1
            · have hMK : MoveKey oldKey rootKey newKey d
                  = (none, (kvRemove d p0).getD d,
                     some (((kvGet d p0).getD defaultKV).withName newKey)) := by
                simp [MoveKey, hp, hq, hil, hadj]
              rw [hMK]
              refine ⟨?_, by simp, by simp, ?_, ?_, ?_, ?_⟩
              · simp only [true_iff]
                exact ⟨⟨p0, rfl⟩, Or.inr ⟨q0, rfl, hil⟩⟩
              · simp only [false_iff, reduceCtorEq]
                rintro ⟨p, q, hp', hq', hfalse⟩
                have hqq : q = q0 := ELoc.kv.inj (Option.some.inj hq').symm
                subst hqq
                rw [hil] at hfalse
                cases hfalse
              · intro p hp' e he
                have hpp : p = p0 := ELoc.kv.inj (Option.some.inj hp').symm
                subst hpp
                exact ⟨by rw [hd1]; exact hremlen, rfl⟩
              · intro p i hp' hq'
                simp at hq'
              · intro p q hp' hq' hil'
                have hpp : p = p0 := ELoc.kv.inj (Option.some.inj hp').symm
                have hqq : q = q0 := ELoc.kv.inj (Option.some.inj hq').symm
                subst hpp
                subst hqq
                refine ⟨fun _ => rfl, ?_⟩
                intro q' kvs1 hadj' hkvs
                rw [hadj] at hadj'
                cases hadj'
            · have hMK : MoveKey oldKey rootKey newKey d
                  = (none, appendToInline ((kvRemove d p0).getD d) q1
                      (((kvGet d p0).getD defaultKV).withName newKey),
                     some (((kvGet d p0).getD defaultKV).withName newKey)) := by
                simp [MoveKey, hp, hq, hil, hadj]
              rw [hMK]
              refine ⟨?_, by simp, by simp, ?_, ?_, ?_, ?_⟩
              · simp only [true_iff]
                exact ⟨⟨p0, rfl⟩, Or.inr ⟨q0, rfl, hil⟩⟩
              · simp only [false_iff, reduceCtorEq]
                rintro ⟨p, q, hp', hq', hfalse⟩
                have hqq : q = q0 := ELoc.kv.inj (Option.some.inj hq').symm
                subst hqq
                rw [hil] at hfalse
                cases hfalse
              · intro p hp' e he
                have hpp : p = p0 := ELoc.kv.inj (Option.some.inj hp').symm
                subst hpp
                exact ⟨by rw [hd1]; exact hremlen, rfl⟩
              · intro p i hp' hq'
                simp at hq'
              · intro p q hp' hq' hil'
                have hpp : p = p0 := ELoc.kv.inj (Option.some.inj hp').symm
                have hqq : q = q0 := ELoc.kv.inj (Option.some.inj hq').symm
                subst hpp
                subst hqq
                refine ⟨?_, ?_⟩
                · intro hfalse
                  rw [hadj] at hfalse
                  cases hfalse
                · intro q' kvs1 hadj' hkvs
                  have hq1 : q' = q1 := by
                    rw [hadj] at hadj'
                    exact (Option.some.inj hadj').symm
                  subst hq1
                  exact appendToInline_effect _ hkvs

/-- A document with a global inline-table mapping, a scalar mapping, and
one named section, exercising every `MoveKey` path. -/
def mvDoc : Document :=
  { global := some
      { heading := none
        items := [.keyValue (.mk [] ["a"] (.mk "" (.token true "Integer" "1"))),
                  .keyValue (.mk [] ["t"] (.mk "" (.inline [])))] }
    sections := [{ heading := some ⟨[], "", false, ["s"]⟩
                   items := [.keyValue (.mk [] ["b"] (.mk "" (.token true "Integer" "2")))] }] }

/-- Witness for `moveKey_spec`: on `mvDoc`, moving `a` under the section
`[s]` succeeds and appends it there; moving `a` into the inline table `t`
succeeds and appends to the inline list at its shifted address. -/
theorem moveKey_spec_witness :
    refItems (MoveKey ["a"] ["s"] ["c"] mvDoc).2.1 (.sec 0)
      = refItems ((kvRemove mvDoc ⟨.global, [.item 0]⟩).getD mvDoc) (.sec 0)
        ++ [.keyValue (((kvGet mvDoc ⟨.global, [.item 0]⟩).getD defaultKV).withName ["c"])]
    ∧ inlineKVsAt (MoveKey ["a"] ["t"] ["c"] mvDoc).2.1 ⟨.global, [.item 0]⟩
      = some ([] ++ [((kvGet mvDoc ⟨.global, [.item 0]⟩).getD defaultKV).withName ["c"]]) := by
  constructor
  · exact (moveKey_spec ["a"] ["s"] ["c"] mvDoc).2.2.2.2.2.1
      ⟨.global, [.item 0]⟩ 0 (by decide) (by decide)
  · exact ((moveKey_spec ["a"] ["t"] ["c"] mvDoc).2.2.2.2.2.2
      ⟨.global, [.item 0]⟩ ⟨.global, [.item 1]⟩ (by decide) (by decide) (by decide)).2
      ⟨.global, [.item 0]⟩ [] (by decide) (by rfl)

/-- C10: when the source is a mapping and the root entry exists but is
neither a section nor an inline table, `MoveKey` reports the
target-is-not-a-table error, yet the document has already been mutated —
the mapping at `oldKey` is spliced out of its owning sequence (which is
one shorter) — and the detached node has been renamed to the new key. -/
theorem moveKey_notATable_mutates (oldKey rootKey newKey : Key) (d : Document)
    (p q : KVLoc) (hp : docFirst d oldKey = some (.kv p))
    (hq : docFirst d rootKey = some (.kv q)) (hni : isInlineLoc d q = false) :
    (MoveKey oldKey rootKey newKey d).1 = some .notATable
    ∧ (MoveKey oldKey rootKey newKey d).2.1 = (kvRemove d p).getD d
    ∧ kvOwnerLen (MoveKey oldKey rootKey newKey d).2.1 p + 1 = kvOwnerLen d p
    ∧ ((MoveKey oldKey rootKey newKey d).2.2).map KeyValue.name = some newKey := by
  have hpv : (kvGet d p).isSome = true := by
    simpa [entryValid] using docFirst_valid hp
  obtain ⟨drem, hrem, hremlen⟩ := kvRemove_spec hpv
  have hd1 : (kvRemove d p).getD d = drem := by rw [hrem]; rfl
  have hMK : MoveKey oldKey rootKey newKey d
      = (some .notATable, (kvRemove d p).getD d,
         some (((kvGet d p).getD defaultKV).withName newKey)) := by
    simp [MoveKey, hp, hq, hni]
  rw [hMK]
  refine ⟨rfl, rfl, ?_, ?_⟩
  · rw [hd1]
    exact hremlen
  · have hname : (((kvGet d p).getD defaultKV).withName newKey).name = newKey := rfl
    simp [hname]

/-- Witness for `moveKey_notATable_mutates`: moving `t` onto the scalar
mapping `a` of `mvDoc` errs with the not-a-table error after having
spliced `t` out of the two-element global item list. -/
theorem moveKey_notATable_mutates_witness :
    (MoveKey ["t"] ["a"] ["c"] mvDoc).1 = some .notATable
    ∧ kvOwnerLen (MoveKey ["t"] ["a"] ["c"] mvDoc).2.1 ⟨.global, [.item 1]⟩ + 1
        = kvOwnerLen mvDoc ⟨.global, [.item 1]⟩
    ∧ ((MoveKey ["t"] ["a"] ["c"] mvDoc).2.2).map KeyValue.name = some ["c"] := by
  have h := moveKey_notATable_mutates ["t"] ["a"] ["c"] mvDoc
    ⟨.global, [.item 1]⟩ ⟨.global, [.item 0]⟩ (by decide) (by decide) (by decide)
  exact ⟨h.1, h.2.2.1, h.2.2.2⟩

/-! ## The scanner and the standalone key/value parsers (claim C7)

The scanner and recursive-descent parser sources are not part of the
snapshot, so the token layer is modelled from the specification; the
`ParseKey`/`ParseValue` wrappers themselves follow `parser/ast.go`. -/

/-- Modelled from the spec: the token classifications of the scanner. -/
inductive TokKind where
  | word
  | basicStr
  | litStr
  | multiStr
  | multiLitStr
  | intTok
  | floatTok
  | localDate
  | localTime
  | localDateTime
  | dateTime
  | lTable
  | rTable
  | lArray
  | rArray
  | lInline
  | rInline
  | dot
  | equal
  | comma
  | comment
  | newline
deriving DecidableEq

/-- A lexical token: a classification together with its exact source text. -/
structure Tok where
  kind : TokKind
  text : String
deriving DecidableEq

def quoteC : Char := Char.ofNat 34

def squoteC : Char := Char.ofNat 39

def lbraceC : Char := Char.ofNat 123

def rbraceC : Char := Char.ofNat 125

/-- Word-safe characters: letters, digits, hyphen, underscore. -/
def isWordChar (c : Char) : Bool := c.isAlphanum || c == '-' || c == '_'

/-- Characters that may continue a number or date/time literal. -/
def isNumRunChar (c : Char) : Bool :=
  c.isAlphanum || c == '_' || c == '.' || c == ':' || c == '+' || c == '-'

def stripSign : List Char → List Char
  | c :: rest => if c == '+' || c == '-' then rest else c :: rest
  | [] => []

def isDigitU (c : Char) : Bool := c.isDigit || c == '_'

def isHexU (c : Char) : Bool :=
  c.isDigit || (Char.ofNat 97 ≤ c && c ≤ Char.ofNat 102) ||
    (Char.ofNat 65 ≤ c && c ≤ Char.ofNat 70) || c == '_'

/-- A decimal digit run with optional underscore separators. -/
def isDec : List Char → Bool
  | c :: rest => c.isDigit && rest.all isDigitU
  | [] => false

/-- Modelled from the spec: integer literals, decimal or with a
`0x`/`0o`/`0b` base marker, with optional sign and underscores. -/
def intP (cs : List Char) : Bool :=
  match stripSign cs with
  | '0' :: 'x' :: rest => !rest.isEmpty && rest.all isHexU
  | '0' :: 'o' :: rest =>
    !rest.isEmpty && rest.all fun c => (c.isDigit && c ≤ '7') || c == '_'
  | '0' :: 'b' :: rest =>
    !rest.isEmpty && rest.all fun c => c == '0' || c == '1' || c == '_'
  | cs2 => isDec cs2

def expP : List Char → Bool
  | e :: rest => (e == 'e' || e == 'E') && isDec (stripSign rest)
  | [] => false

/-- Modelled from the spec: float literals with optional sign, fraction and
exponent, plus the special spellings `inf` and `nan`. -/
def floatP (cs : List Char) : Bool :=
  let cs2 := stripSign cs
  cs2 == ['i', 'n', 'f'] || cs2 == ['n', 'a', 'n'] ||
    (let p := cs2.span isDigitU
     isDec p.1 &&
       match p.2 with
       | '.' :: r2 =>
         let q := r2.span isDigitU
         isDec q.1 && (q.2.isEmpty || expP q.2)
       | r1 => expP r1)

/-- `YYYY-MM-DD`, by digit pattern only. -/
def dateP : List Char → Bool
  | [y1, y2, y3, y4, h1, m1, m2, h2, d1, d2] =>
    y1.isDigit && y2.isDigit && y3.isDigit && y4.isDigit && h1 == '-' &&
      m1.isDigit && m2.isDigit && h2 == '-' && d1.isDigit && d2.isDigit
  | _ => false

/-- Consumes `HH:MM:SS` with an optional `.fraction` from the front of the
list, returning the remainder, or `none` if no time is present. -/
def timeRemainder : List Char → Option (List Char)
  | h1 :: h2 :: c1 :: m1 :: m2 :: c2 :: s1 :: s2 :: rest =>
    if h1.isDigit && h2.isDigit && c1 == ':' && m1.isDigit && m2.isDigit &&
        c2 == ':' && s1.isDigit && s2.isDigit then
      match rest with
      | '.' :: f :: fs =>
        if f.isDigit then some (fs.dropWhile Char.isDigit) else some ('.' :: f :: fs)
      | other => some other
    else none
  | _ => none

/-- A `Z` or `±HH:MM` time-zone offset. -/
def offsetP (cs : List Char) : Bool :=
  cs == ['Z'] ||
    match cs with
    | [s, a, b, c, d1, d2] =>
      (s == '+' || s == '-') && a.isDigit && b.isDigit && c == ':' &&
        d1.isDigit && d2.isDigit
    | _ => false

/-- Modelled from the spec: classify a literal run as one of the four
date/time token classes, by lookahead over the digit-and-separator
pattern. -/
def dtClass (cs : List Char) : Option TokKind :=
  if dateP (cs.take 10) then
    match cs.drop 10 with
    | [] => some .localDate
    | 'T' :: rest =>
      match timeRemainder rest with
      | some [] => some .localDateTime
      | some rem => if offsetP rem then some .dateTime else none
      | none => none
    | _ => none
  else
    match timeRemainder cs with
    | some [] => some .localTime
    | _ => none

/-- Classify a sign/digit-initial literal run: date/time first, then
integer, then float. -/
def classifyNum (cs : List Char) : Option TokKind :=
  match dtClass cs with
  | some k => some k
  | none =>
    if intP cs then some .intTok
    else if floatP cs then some .floatTok
    else none

/-- Consume the body of a single-line basic string up to the closing double
quote, keeping escape pairs verbatim; `none` when unterminated. -/
def takeBasicString : List Char → Option (List Char × List Char)
  | [] => none
  | c :: rest =>
    if c == quoteC then some ([], rest)
    else if c == '\\' then
      match rest with
      | [] => none
      | d :: rest2 => (takeBasicString rest2).map fun p => (c :: d :: p.1, p.2)
    else (takeBasicString rest).map fun p => (c :: p.1, p.2)

/-- Consume the body of a multi-line string up to the closing triple quote
`q q q`; escape pairs are kept verbatim in the double-quoted style. -/
def takeMultiString (q : Char) : List Char → Option (List Char × List Char)
  | [] => none
  | c :: rest =>
    if c == q then
      match rest with
      | c2 :: c3 :: rest2 =>
        if c2 == q && c3 == q then some ([], rest2)
        else (takeMultiString q rest).map fun p => (c :: p.1, p.2)
      | _ => (takeMultiString q rest).map fun p => (c :: p.1, p.2)
    else if c == '\\' && q == quoteC then
      match rest with
      | [] => none
      | d :: rest2 => (takeMultiString q rest2).map fun p => (c :: d :: p.1, p.2)
    else (takeMultiString q rest).map fun p => (c :: p.1, p.2)

/-- Consume the body of a literal (single-quoted) string. -/
def takeLitString : List Char → Option (List Char × List Char)
  | [] => none
  | c :: rest =>
    if c == squoteC then some ([], rest)
    else (takeLitString rest).map fun p => (c :: p.1, p.2)

/-- A comment runs to the end of the line; the terminating newline is
consumed with it but is not part of the text. -/
def takeComment (cs : List Char) : List Char × List Char :=
  let p := cs.span fun c => c != '\n'
  (p.1, match p.2 with
        | _ :: r => r
        | [] => [])

/-- Modelled from the spec: the scanner loop.  Fuel is an embedding
artifact; every step consumes at least one character, so `length + 1`
steps always suffice. -/
def scanAux : Nat → List Char → Except String (List Tok)
  | 0, _ => .error "scanner recursion limit"
  | _ + 1, [] => .ok []
  | n + 1, c :: cs =>
    if c == ' ' || c == '\t' || c == '\r' then scanAux n cs
    else if c == '\n' then (scanAux n cs).map (⟨.newline, ""⟩ :: ·)
    else if c == '#' then
      let p := takeComment (c :: cs)
      (scanAux n p.2).map (⟨.comment, ⟨p.1⟩⟩ :: ·)
    else if c == quoteC then
      match cs with
      | c2 :: c3 :: rest =>
        if c2 == quoteC && c3 == quoteC then
          match takeMultiString quoteC rest with
          | none => .error "unterminated string"
          | some (body, rest2) =>
            (scanAux n rest2).map
              (⟨.multiStr, ⟨[c, c2, c3] ++ body ++ [quoteC, quoteC, quoteC]⟩⟩ :: ·)
        else
          match takeBasicString cs with
          | none => .error "unterminated string"
          | some (body, rest2) =>
            (scanAux n rest2).map (⟨.basicStr, ⟨[c] ++ body ++ [quoteC]⟩⟩ :: ·)
      | _ =>
        match takeBasicString cs with
        | none => .error "unterminated string"
        | some (body, rest2) =>
          (scanAux n rest2).map (⟨.basicStr, ⟨[c] ++ body ++ [quoteC]⟩⟩ :: ·)
    else if c == squoteC then
      match cs with
      | c2 :: c3 :: rest =>
        if c2 == squoteC && c3 == squoteC then
          match takeMultiString squoteC rest with
          | none => .error "unterminated string"
          | some (body, rest2) =>
            (scanAux n rest2).map
              (⟨.multiLitStr, ⟨[c, c2, c3] ++ body ++ [squoteC, squoteC, squoteC]⟩⟩ :: ·)
        else
          match takeLitString cs with
          | none => .error "unterminated string"
          | some (body, rest2) =>
            (scanAux n rest2).map (⟨.litStr, ⟨[c] ++ body ++ [squoteC]⟩⟩ :: ·)
      | _ =>
        match takeLitString cs with
        | none => .error "unterminated string"
        | some (body, rest2) =>
          (scanAux n rest2).map (⟨.litStr, ⟨[c] ++ body ++ [squoteC]⟩⟩ :: ·)
    else if c == '[' then
      match cs with
      | c2 :: rest =>
        if c2 == '[' then (scanAux n rest).map (⟨.lArray, "[["⟩ :: ·)
        else (scanAux n cs).map (⟨.lTable, "["⟩ :: ·)
      | [] => (scanAux n cs).map (⟨.lTable, "["⟩ :: ·)
    else if c == ']' then
      match cs with
      | c2 :: rest =>
        if c2 == ']' then (scanAux n rest).map (⟨.rArray, "]]"⟩ :: ·)
        else (scanAux n cs).map (⟨.rTable, "]"⟩ :: ·)
      | [] => (scanAux n cs).map (⟨.rTable, "]"⟩ :: ·)
    else if c == lbraceC then (scanAux n cs).map (⟨.lInline, "\x7b"⟩ :: ·)
    else if c == rbraceC then (scanAux n cs).map (⟨.rInline, "\x7d"⟩ :: ·)
    else if c == '.' then (scanAux n cs).map (⟨.dot, "."⟩ :: ·)
    else if c == '=' then (scanAux n cs).map (⟨.equal, "="⟩ :: ·)
    else if c == ',' then (scanAux n cs).map (⟨.comma, ","⟩ :: ·)
    else if c.isAlpha || c == '_' then
      let p := (c :: cs).span isWordChar
      if p.1 == ['i', 'n', 'f'] || p.1 == ['n', 'a', 'n'] then
        (scanAux n p.2).map (⟨.floatTok, ⟨p.1⟩⟩ :: ·)
      else (scanAux n p.2).map (⟨.word, ⟨p.1⟩⟩ :: ·)
    else if c.isDigit || c == '+' || c == '-' then
      let p := (c :: cs).span isNumRunChar
      match classifyNum p.1 with
      | some k => (scanAux n p.2).map (⟨k, ⟨p.1⟩⟩ :: ·)
      | none => .error "unrecognized token"
    else .error "unrecognized character"

/-- Scan a standalone string into its token list. -/
def scanTop (s : String) : Except String (List Tok) :=
  scanAux (s.length + 1) s.data

/-- Process the escape pairs of a basic string body. -/
def unescapeChars : List Char → List Char
  | [] => []
  | c :: rest =>
    if c == '\\' then
      match rest with
      | [] => []
      | d :: rest2 =>
        (if d == 'n' then '\n' else if d == 't' then '\t' else d) :: unescapeChars rest2
    else c :: unescapeChars rest

/-- Strip the quotes of a basic string token and process its escapes. -/
def unquoteBasic (t : String) : String := ⟨unescapeChars ((t.data.drop 1).dropLast)⟩

/-- Strip the quotes of a literal string token. -/
def unquoteLit (t : String) : String := ⟨(t.data.drop 1).dropLast⟩

/-- The key-fragment reading of a token: a bare word stands for itself, a
quoted string for its (unescaped) contents; other tokens cannot be key
fragments. -/
def fragTok (t : Tok) : Option String :=
  match t.kind with
  | .word => some t.text
  | .basicStr => some (unquoteBasic t.text)
  | .litStr => some (unquoteLit t.text)
  | _ => none

/-- Parse one key fragment from the front of the token list. -/
def parseFrag : List Tok → Except String (String × List Tok)
  | t :: rest =>
    match fragTok t with
    | some f => .ok (f, rest)
    | none => .error "expected a key fragment"
  | [] => .error "unexpected end of input"

/-- Parse the `. fragment` continuations of a dotted key. -/
def parseKeyRest : List Tok → Except String (Key × List Tok)
  | [] => .ok ([], [])
  | t :: rest =>
    if t.kind == .dot then
      match rest with
      | t2 :: rest2 =>
        match fragTok t2 with
        | some f => (parseKeyRest rest2).map fun p => (f :: p.1, p.2)
        | none => .error "expected a key fragment"
      | [] => .error "unexpected end of input"
    else .ok ([], t :: rest)

/-- Modelled from the spec: `parseKey`, one fragment followed by zero or
more `. fragment` continuations. -/
def parseKeyToks (toks : List Tok) : Except String (Key × List Tok) :=
  match parseFrag toks with
  | .error e => .error e
  | .ok (f, rest) =>
    match parseKeyRest rest with
    | .error e => .error e
    | .ok (k, rest2) => .ok (f :: k, rest2)

/-- `ParseKey` from `parser/ast.go`: scan the whole string, require a first
token, parse a single key, and fail unless the input is exhausted. -/
def ParseKey (s : String) : Except String Key :=
  match scanTop s with
  | .error e => .error e
  | .ok [] => .error "unexpected end of input"
  | .ok (t :: ts) =>
    match parseKeyToks (t :: ts) with
    | .error e => .error e
    | .ok (k, []) => .ok k
    | .ok (_, _ :: _) => .error "extra input after key"

/-- The printable class name of each scalar token kind. -/
def tokTypeName : TokKind → String
  | .word => "Word"
  | .basicStr => "String"
  | .litStr => "LString"
  | .multiStr => "MString"
  | .multiLitStr => "MLString"
  | .intTok => "Integer"
  | .floatTok => "Float"
  | .localDate => "LocalDate"
  | .localTime => "LocalTime"
  | .localDateTime => "LocalDateTime"
  | .dateTime => "DateTime"
  | _ => ""

/-- The token kinds that stand alone as scalar values. -/
def isScalarKind : TokKind → Bool
  | .word | .basicStr | .litStr | .multiStr | .multiLitStr | .intTok
  | .floatTok | .localDate | .localTime | .localDateTime | .dateTime => true
  | _ => false

mutual
/-- Modelled from the spec: `parseValue` over tokens — a scalar token, an
array `[ ... ]`, or an inline table `\x7b ... \x7d`.  Fuel is an embedding
artifact of the nesting. -/
def parseValueToks : Nat → List Tok → Except String (Value × List Tok)
  | 0, _ => .error "recursion limit"
  | _ + 1, [] => .error "unexpected end of input"
  | n + 1, t :: rest =>
    if isScalarKind t.kind then
      .ok (.mk "" (.token true (tokTypeName t.kind) t.text), rest)
    else if t.kind == .lTable then
      match parseArrayItems n rest with
      | .error e => .error e
      | .ok (its, rest2) => .ok (.mk "" (.array its), rest2)
    else if t.kind == .lInline then
      match rest with
      | t2 :: rest2 =>
        if t2.kind == .rInline then .ok (.mk "" (.inline []), rest2)
        else
          match parseInlineKVs n rest with
          | .error e => .error e
          | .ok (kvs, rest3) => .ok (.mk "" (.inline kvs), rest3)
      | [] => .error "unexpected end of input"
    else .error "unexpected token"

/-- Array elements: values and embedded comments, separated by commas and
newlines, closed by `]`. -/
def parseArrayItems : Nat → List Tok → Except String (List ArrayItem × List Tok)
  | 0, _ => .error "recursion limit"
  | _ + 1, [] => .error "unterminated array"
  | n + 1, t :: rest =>
    if t.kind == .rTable then .ok ([], rest)
    else if t.kind == .newline || t.kind == .comma then parseArrayItems n rest
    else if t.kind == .comment then
      match parseArrayItems n rest with
      | .error e => .error e
      | .ok (its, rest2) => .ok (.comments [t.text] :: its, rest2)
    else
      match parseValueToks n (t :: rest) with
      | .error e => .error e
      | .ok (v, rest2) =>
        match parseArrayItems n rest2 with
        | .error e => .error e
        | .ok (its, rest3) => .ok (.value v :: its, rest3)

/-- Inline-table bindings: `key = value` pairs separated by commas, closed
by `\x7d`. -/
def parseInlineKVs : Nat → List Tok → Except String (List KeyValue × List Tok)
  | 0, _ => .error "recursion limit"
  | n + 1, toks =>
    match parseKeyToks toks with
    | .error e => .error e
    | .ok (k, rest) =>
      match rest with
      | [] => .error "expected an equals sign after the key"
      | eqt :: rest2 =>
        if eqt.kind == .equal then
          match parseValueToks n rest2 with
          | .error e => .error e
          | .ok (v, rest3) =>
            match rest3 with
            | [] => .error "expected a comma or a closing brace"
            | ct :: rest4 =>
              if ct.kind == .comma then
                match parseInlineKVs n rest4 with
                | .error e => .error e
                | .ok (kvs, rest5) => .ok (.mk [] k v :: kvs, rest5)
              else if ct.kind == .rInline then .ok ([.mk [] k v], rest4)
              else .error "expected a comma or a closing brace"
        else .error "expected an equals sign after the key"
end

/-- `ParseValue` from `parser/ast.go`: scan the whole string, require a
first token, parse a single value, accept one optional trailing comment
(stored as the Trailer) or newline, and fail unless the input is then
exhausted. -/
def ParseValue (s : String) : Except String Value :=
  match scanTop s with
  | .error e => .error e
  | .ok [] => .error "unexpected end of input"
  | .ok (t :: ts) =>
    match parseValueToks (2 * (t :: ts).length + 2) (t :: ts) with
    | .error e => .error e
    | .ok (v, rest) =>
      match rest with
      | [] => .ok v
      | t2 :: rest2 =>
        if t2.kind == .comment then
          if rest2.isEmpty then .ok (.mk t2.text v.x)
          else .error "extra input after value"
        else if t2.kind == .newline then
          if rest2.isEmpty then .ok v
          else .error "extra input after value"
        else .error "unexpected token"

/-- The token sequences that spell exactly one dotted key: a fragment
token followed by zero or more dot-fragment pairs. -/
inductive KeyToks : List Tok → Key → Prop where
  | single (t : Tok) (f : String) : fragTok t = some f → KeyToks [t] [f]
  | dotted (t dt : Tok) (f : String) (ts : List Tok) (k : Key) :
      fragTok t = some f → dt.kind = .dot → KeyToks ts k →
      KeyToks (t :: dt :: ts) (f :: k)

/-- `e.isErr` is `true` exactly on errors. -/
def isErr {α : Type} : Except String α → Bool
  | .error _ => true
  | .ok _ => false

theorem parseKeyRest_complete {ts : List Tok} {k : Key} (h : KeyToks ts k) :
    ∀ dx : String, parseKeyRest (⟨.dot, dx⟩ :: ts) = .ok (k, []) := by
  induction h with
  | single t f hf =>
    intro dx
    simp [parseKeyRest, hf, Except.map]
  | dotted t dt f ts0 k0 hf hdk hts ih =>
    intro dx
    obtain ⟨dk, dtx⟩ := dt
    have hdk : dk = TokKind.dot := hdk
    subst hdk
    simp [parseKeyRest, hf, ih dtx, Except.map]

theorem parseKeyToks_complete {ts : List Tok} {k : Key} (h : KeyToks ts k) :
    parseKeyToks ts = .ok (k, []) := by
  cases h with
  | single t f hf =>
    simp [parseKeyToks, parseFrag, hf, parseKeyRest]
  | dotted t dt f ts0 k0 hf hdk hts =>
    obtain ⟨dk, dtx⟩ := dt
    have hdk : dk = TokKind.dot := hdk
    subst hdk
    simp [parseKeyToks, parseFrag, hf, parseKeyRest_complete hts dtx]

theorem parseKeyRest_sound :
    ∀ (rest : List Tok) (k : Key) (t : Tok) (f : String),
      parseKeyRest rest = .ok (k, []) → fragTok t = some f →
      KeyToks (t :: rest) (f :: k)
  | [], k, t, f, h, hf => by
    simp [parseKeyRest] at h
    subst h
    exact .single t f hf
  | [t1], k, t, f, h, hf => by
    by_cases hk1 : t1.kind = .dot
    · simp [parseKeyRest, hk1] at h
    · simp [parseKeyRest, hk1] at h
  | t1 :: t2 :: rest2, k, t, f, h, hf => by
    by_cases hk1 : t1.kind = .dot
    · cases hf2 : fragTok t2 with
      | none => simp [parseKeyRest, hk1, hf2] at h
      | some f2 =>
        simp only [parseKeyRest, hk1, hf2] at h
        cases hr : parseKeyRest rest2 with
        | error e => rw [hr] at h; simp [Except.map] at h
        | ok p =>
          obtain ⟨k3, r3⟩ := p
          rw [hr] at h
          simp [Except.map] at h
          obtain ⟨hk, hr3⟩ := h
          subst hr3
          have ih := parseKeyRest_sound rest2 k3 t2 f2 hr hf2
          rw [← hk]
          obtain ⟨k1, tx1⟩ := t1
          have hk1 : k1 = TokKind.dot := hk1
          subst hk1
          exact .dotted t ⟨.dot, tx1⟩ f (t2 :: rest2) (f2 :: k3) hf rfl ih
    · simp [parseKeyRest, hk1] at h

theorem parseKeyToks_sound {toks : List Tok} {k : Key}
    (h : parseKeyToks toks = .ok (k, [])) : KeyToks toks k := by
  cases toks with
  | nil => simp [parseKeyToks, parseFrag] at h
  | cons t rest =>
    cases hf : fragTok t with
    | none => simp [parseKeyToks, parseFrag, hf] at h
    | some f =>
      simp only [parseKeyToks, parseFrag, hf] at h
      cases hr : parseKeyRest rest with
      | error e => rw [hr] at h; simp at h
      | ok p =>
        obtain ⟨k2, r2⟩ := p
        rw [hr] at h
        simp at h
        obtain ⟨hk, hr2⟩ := h
        subst hr2
        rw [← hk]
        exact parseKeyRest_sound rest k2 t f hr hf


/-- `headNotDot rest` says the continuation tokens cannot extend a dotted
key (maximal munch: a key run ends only where no `.` follows). -/
def headNotDot : List Tok → Prop
  | [] => True
  | t :: _ => ¬t.kind = .dot

/-- The token lists whose front spells exactly one dotted key, leaving
`rest`: the prefix form of `KeyToks`, used for the keys of inline
tables. -/
inductive KeyToksP : List Tok → Key → List Tok → Prop where
  | single (t : Tok) (f : String) (rest : List Tok) :
      fragTok t = some f → headNotDot rest → KeyToksP (t :: rest) [f] rest
  | dotted (t dt : Tok) (f : String) (toks rest : List Tok) (k : Key) :
      fragTok t = some f → dt.kind = .dot → KeyToksP toks k rest →
      KeyToksP (t :: dt :: toks) (f :: k) rest

/-! Modelled from the spec: the token-level value grammar.  `ValToks toks v
rest` holds when the front of `toks` spells exactly one value `v`, leaving
`rest`: a scalar token, an array of comma/newline-separated values and
embedded comments closed by a right bracket, or an inline table of
comma-separated key-value pairs (no trailing comma) closed by a right
brace. -/
mutual
/-- One value at the front of the token list, leaving the rest. -/
inductive ValToks : List Tok → Value → List Tok → Prop where
  | scalar (t : Tok) (rest : List Tok) :
      isScalarKind t.kind = true →
      ValToks (t :: rest) (.mk "" (.token true (tokTypeName t.kind) t.text)) rest
  | array (t : Tok) (toks rest : List Tok) (its : List ArrayItem) :
      t.kind = .lTable → ArrToks toks its rest →
      ValToks (t :: toks) (.mk "" (.array its)) rest
  | inlineEmpty (t t2 : Tok) (rest : List Tok) :
      t.kind = .lInline → t2.kind = .rInline →
      ValToks (t :: t2 :: rest) (.mk "" (.inline [])) rest
  | inlineTab (t : Tok) (toks rest : List Tok) (kvs : List KeyValue) :
      t.kind = .lInline → InlToks toks kvs rest →
      ValToks (t :: toks) (.mk "" (.inline kvs)) rest

inductive ArrToks : List Tok → List ArrayItem → List Tok → Prop where
  | close (t : Tok) (rest : List Tok) :
      t.kind = .rTable → ArrToks (t :: rest) [] rest
  | skip (t : Tok) (toks rest : List Tok) (its : List ArrayItem) :
      t.kind = .newline ∨ t.kind = .comma → ArrToks toks its rest →
      ArrToks (t :: toks) its rest
  | comm (t : Tok) (toks rest : List Tok) (its : List ArrayItem) :
      t.kind = .comment → ArrToks toks its rest →
      ArrToks (t :: toks) (.comments [t.text] :: its) rest
  | val (toks mid rest : List Tok) (v : Value) (its : List ArrayItem) :
      ValToks toks v mid → ArrToks mid its rest →
      ArrToks toks (.value v :: its) rest

inductive InlToks : List Tok → List KeyValue → List Tok → Prop where
  | last (toks toks2 rest : List Tok) (eqt rt : Tok) (k : Key) (v : Value) :
      KeyToksP toks k (eqt :: toks2) → eqt.kind = .equal →
      ValToks toks2 v (rt :: rest) → rt.kind = .rInline →
      InlToks toks [.mk [] k v] rest
  | more (toks toks2 mid rest : List Tok) (eqt ct : Tok) (k : Key) (v : Value)
      (kvs : List KeyValue) :
      KeyToksP toks k (eqt :: toks2) → eqt.kind = .equal →
      ValToks toks2 v (ct :: mid) → ct.kind = .comma →
      InlToks mid kvs rest →
      InlToks toks (.mk [] k v :: kvs) rest
end

theorem fragTok_kinds {t : Tok} {f : String} (h : fragTok t = some f) :
    t.kind = .word ∨ t.kind = .basicStr ∨ t.kind = .litStr := by
  obtain ⟨k, tx⟩ := t
  cases k <;> simp_all [fragTok]

theorem keyToksP_head :
    ∀ {toks : List Tok} {k : Key} {rest : List Tok}, KeyToksP toks k rest →
    ∃ t ts f, toks = t :: ts ∧ fragTok t = some f
  | _, _, _, .single t f r hf _ => ⟨t, r, f, rfl, hf⟩
  | _, _, _, .dotted t dt f toks0 r k0 hf _ _ => ⟨t, dt :: toks0, f, rfl, hf⟩

theorem keyToksP_consumes {toks : List Tok} {k : Key} {rest : List Tok}
    (h : KeyToksP toks k rest) : rest.length < toks.length := by
  induction h with
  | single t f r _ _ => simp only [List.length_cons]; omega
  | dotted t dt f toks0 r k0 _ _ _ ih => simp only [List.length_cons]; omega

theorem parseKeyRestP_sound :
    ∀ (toks : List Tok) (ks : Key) (rest : List Tok) (t : Tok) (f : String),
      parseKeyRest toks = .ok (ks, rest) → fragTok t = some f →
      KeyToksP (t :: toks) (f :: ks) rest
  | [], ks, rest, t, f, h, hf => by
    simp [parseKeyRest] at h
    obtain ⟨h1, h2⟩ := h
    subst h1; subst h2
    exact .single t f [] hf trivial
  | [t1], ks, rest, t, f, h, hf => by
    by_cases hk1 : t1.kind = .dot
    · simp [parseKeyRest, hk1] at h
    · simp [parseKeyRest, hk1] at h
      obtain ⟨h1, h2⟩ := h
      subst h1; subst h2
      exact .single t f [t1] hf hk1
  | t1 :: t2 :: rest2, ks, rest, t, f, h, hf => by
    by_cases hk1 : t1.kind = .dot
    · cases hf2 : fragTok t2 with
      | none => simp [parseKeyRest, hk1, hf2] at h
      | some f2 =>
        simp only [parseKeyRest, hk1, hf2] at h
        cases hr : parseKeyRest rest2 with
        | error e => rw [hr] at h; simp [Except.map] at h
        | ok p =>
          obtain ⟨k3, r3⟩ := p
          rw [hr] at h
          simp [Except.map] at h
          obtain ⟨hk, hr3⟩ := h
          subst hr3
          have ih := parseKeyRestP_sound rest2 k3 r3 t2 f2 hr hf2
          rw [← hk]
          obtain ⟨k1, tx1⟩ := t1
          have hk1 : k1 = TokKind.dot := hk1
          subst hk1
          exact .dotted t ⟨.dot, tx1⟩ f (t2 :: rest2) r3 (f2 :: k3) hf rfl ih
    · simp [parseKeyRest, hk1] at h
      obtain ⟨h1, h2⟩ := h
      subst h1; subst h2
      exact .single t f (t1 :: t2 :: rest2) hf hk1

theorem parseKeyToksP_sound {toks : List Tok} {k : Key} {rest : List Tok}
    (h : parseKeyToks toks = .ok (k, rest)) : KeyToksP toks k rest := by
  cases toks with
  | nil => simp [parseKeyToks, parseFrag] at h
  | cons t ts =>
    cases hf : fragTok t with
    | none => simp [parseKeyToks, parseFrag, hf] at h
    | some f =>
      simp only [parseKeyToks, parseFrag, hf] at h
      cases hr : parseKeyRest ts with
      | error e => rw [hr] at h; simp at h
      | ok p =>
        obtain ⟨k2, r2⟩ := p
        rw [hr] at h
        simp at h
        obtain ⟨hk, hr2⟩ := h
        subst hr2
        rw [← hk]
        exact parseKeyRestP_sound ts k2 r2 t f hr hf

theorem parseKeyRest_stop {rest : List Tok} (h : headNotDot rest) :
    parseKeyRest rest = .ok ([], rest) := by
  cases rest with
  | nil => rfl
  | cons t1 r1 =>
    have h : ¬t1.kind = .dot := h
    rw [parseKeyRest.eq_def]
    simp [h]

theorem parseKeyRestP_complete {ts : List Tok} {k : Key} {rest : List Tok}
    (h : KeyToksP ts k rest) :
    ∀ dx : String, parseKeyRest (⟨.dot, dx⟩ :: ts) = .ok (k, rest) := by
  induction h with
  | single t f r hf hnd =>
    intro dx
    simp [parseKeyRest, hf, parseKeyRest_stop hnd, Except.map]
  | dotted t dt f toks0 r k0 hf hdk hts ih =>
    intro dx
    obtain ⟨dk, dtx⟩ := dt
    have hdk : dk = TokKind.dot := hdk
    subst hdk
    simp [parseKeyRest, hf, ih dtx, Except.map]

theorem parseKeyToksP_complete {toks : List Tok} {k : Key} {rest : List Tok}
    (h : KeyToksP toks k rest) : parseKeyToks toks = .ok (k, rest) := by
  induction h with
  | single t f r hf hnd =>
    simp [parseKeyToks, parseFrag, hf, parseKeyRest_stop hnd]
  | dotted t dt f toks0 r k0 hf hdk hts ih =>
    obtain ⟨dk, dtx⟩ := dt
    have hdk : dk = TokKind.dot := hdk
    subst hdk
    simp [parseKeyToks, parseFrag, hf, parseKeyRestP_complete hts dtx]

theorem valToks_head :
    ∀ {toks : List Tok} {v : Value} {rest : List Tok}, ValToks toks v rest →
    ∃ t ts, toks = t :: ts ∧
      (isScalarKind t.kind = true ∨ t.kind = .lTable ∨ t.kind = .lInline)
  | _, _, _, .scalar t r hs => ⟨t, r, rfl, Or.inl hs⟩
  | _, _, _, .array t toks0 r its ht _ => ⟨t, toks0, rfl, Or.inr (Or.inl ht)⟩
  | _, _, _, .inlineEmpty t t2 r ht _ => ⟨t, t2 :: r, rfl, Or.inr (Or.inr ht)⟩
  | _, _, _, .inlineTab t toks0 r kvs ht _ => ⟨t, toks0, rfl, Or.inr (Or.inr ht)⟩

theorem valueHead_clear {k : TokKind}
    (h : isScalarKind k = true ∨ k = .lTable ∨ k = .lInline) :
    ((k == TokKind.rTable) = false) ∧
      (((k == TokKind.newline) || (k == TokKind.comma)) = false) ∧
      ((k == TokKind.comment) = false) := by
  revert h
  cases k <;> decide

theorem inlToks_key :
    ∀ {toks : List Tok} {kvs : List KeyValue} {rest : List Tok},
      InlToks toks kvs rest → ∃ k r, KeyToksP toks k r
  | _, _, _, .last toks toks2 r eqt _rt k v hkp _ _ _ => ⟨k, eqt :: toks2, hkp⟩
  | _, _, _, .more toks toks2 _mid r eqt _ct k v kvs0 hkp _ _ _ _ =>
    ⟨k, eqt :: toks2, hkp⟩

theorem inlToks_head {toks : List Tok} {kvs : List KeyValue} {rest : List Tok}
    (h : InlToks toks kvs rest) :
    ∃ t ts, toks = t :: ts ∧ (t.kind == TokKind.rInline) = false := by
  obtain ⟨k, r, hkp⟩ := inlToks_key h
  obtain ⟨t, ts, f, heq, hf⟩ := keyToksP_head hkp
  refine ⟨t, ts, heq, ?_⟩
  rcases fragTok_kinds hf with h1 | h1 | h1 <;> rw [h1] <;> decide

mutual
theorem valToks_consumes : ∀ {toks : List Tok} {v : Value} {rest : List Tok},
    ValToks toks v rest → rest.length < toks.length
  | _, _, _, .scalar t rest h => by simp only [List.length_cons]; omega
  | _, _, _, .array t toks0 rest its ht ha => by
    have := arrToks_consumes ha
    simp only [List.length_cons]; omega
  | _, _, _, .inlineEmpty t t2 rest ht ht2 => by
    simp only [List.length_cons]; omega
  | _, _, _, .inlineTab t toks0 rest kvs ht hi => by
    have := inlToks_consumes hi
    simp only [List.length_cons]; omega

theorem arrToks_consumes :
    ∀ {toks : List Tok} {its : List ArrayItem} {rest : List Tok},
      ArrToks toks its rest → rest.length < toks.length
  | _, _, _, .close t rest ht => by simp only [List.length_cons]; omega
  | _, _, _, .skip t toks0 rest its ho ha => by
    have := arrToks_consumes ha
    simp only [List.length_cons]; omega
  | _, _, _, .comm t toks0 rest its ht ha => by
    have := arrToks_consumes ha
    simp only [List.length_cons]; omega
  | _, _, _, .val toks mid rest v its hv ha => by
    have h1 := valToks_consumes hv
    have h2 := arrToks_consumes ha
    omega

theorem inlToks_consumes :
    ∀ {toks : List Tok} {kvs : List KeyValue} {rest : List Tok},
      InlToks toks kvs rest → rest.length < toks.length
  | _, _, _, .last toks toks2 rest eqt rt k v hk he hv hr => by
    have h1 := keyToksP_consumes hk
    have h2 := valToks_consumes hv
    simp only [List.length_cons] at h1 h2
    omega
  | _, _, _, .more toks toks2 mid rest eqt ct k v kvs hk he hv hc hi => by
    have h1 := keyToksP_consumes hk
    have h2 := valToks_consumes hv
    have h3 := inlToks_consumes hi
    simp only [List.length_cons] at h1 h2
    omega
end

mutual
theorem valToks_complete : ∀ {toks : List Tok} {v : Value} {rest : List Tok},
    ValToks toks v rest → ∀ n : Nat, 2 * toks.length ≤ n + 2 * rest.length →
    parseValueToks n toks = .ok (v, rest)
  | _, _, _, .scalar t rest h, n, hn => by
    cases n with
    | zero => exfalso; simp only [List.length_cons] at hn; omega
    | succ m => simp [parseValueToks, h]
  | _, _, _, .array t toks0 rest its ht ha, n, hn => by
    have hc := arrToks_consumes ha
    cases n with
    | zero => exfalso; simp only [List.length_cons] at hn; omega
    | succ m =>
      have hrec := arrToks_complete ha m
        (by simp only [List.length_cons] at hn; omega)
      simp [parseValueToks, ht, isScalarKind, hrec]
  | _, _, _, .inlineEmpty t t2 rest ht ht2, n, hn => by
    cases n with
    | zero => exfalso; simp only [List.length_cons] at hn; omega
    | succ m => simp [parseValueToks, ht, ht2, isScalarKind]
  | _, _, _, .inlineTab t toks0 rest kvs ht hi, n, hn => by
    obtain ⟨t2, ts2, heq, hne⟩ := inlToks_head hi
    subst heq
    have hc := inlToks_consumes hi
    cases n with
    | zero => exfalso; simp only [List.length_cons] at hn hc; omega
    | succ m =>
      have hrec := inlToks_complete hi m
        (by simp only [List.length_cons] at hn ⊢; omega)
      simp [parseValueToks, ht, isScalarKind, hne, hrec]

theorem arrToks_complete :
    ∀ {toks : List Tok} {its : List ArrayItem} {rest : List Tok},
      ArrToks toks its rest → ∀ n : Nat,
      2 * toks.length ≤ n + 2 * rest.length →
      parseArrayItems n toks = .ok (its, rest)
  | _, _, _, .close t rest ht, n, hn => by
    cases n with
    | zero => exfalso; simp only [List.length_cons] at hn; omega
    | succ m => simp [parseArrayItems, ht]
  | _, _, _, .skip t toks0 rest its ho ha, n, hn => by
    have hc := arrToks_consumes ha
    cases n with
    | zero => exfalso; simp only [List.length_cons] at hn; omega
    | succ m =>
      have hrec := arrToks_complete ha m
        (by simp only [List.length_cons] at hn; omega)
      rcases ho with h | h <;> simp [parseArrayItems, h, hrec]
  | _, _, _, .comm t toks0 rest its ht ha, n, hn => by
    have hc := arrToks_consumes ha
    cases n with
    | zero => exfalso; simp only [List.length_cons] at hn; omega
    | succ m =>
      have hrec := arrToks_complete ha m
        (by simp only [List.length_cons] at hn; omega)
      simp [parseArrayItems, ht, hrec]
  | _, _, _, .val toks mid rest v its hv ha, n, hn => by
    obtain ⟨t, ts, heq, hkind⟩ := valToks_head hv
    subst heq
    obtain ⟨hc1, hc2, hc3⟩ := valueHead_clear hkind
    have hcv := valToks_consumes hv
    have hca := arrToks_consumes ha
    cases n with
    | zero => exfalso; simp only [List.length_cons] at hn hcv; omega
    | succ m =>
      have hrecv := valToks_complete hv m
        (by simp only [List.length_cons] at hn hca ⊢; omega)
      have hreca := arrToks_complete ha m
        (by simp only [List.length_cons] at hn hcv; omega)
      simp [parseArrayItems, hc1, hc2, hc3, hrecv, hreca]

theorem inlToks_complete :
    ∀ {toks : List Tok} {kvs : List KeyValue} {rest : List Tok},
      InlToks toks kvs rest → ∀ n : Nat,
      2 * toks.length ≤ n + 2 * rest.length →
      parseInlineKVs n toks = .ok (kvs, rest)
  | _, _, _, .last toks toks2 rest eqt rt k v hk he hv hrt, n, hn => by
    have hck := keyToksP_consumes hk
    have hcv := valToks_consumes hv
    cases n with
    | zero => exfalso; simp only [List.length_cons] at hck hcv; omega
    | succ m =>
      have hrecv := valToks_complete hv m
        (by simp only [List.length_cons] at hn hck ⊢; omega)
      simp [parseInlineKVs, parseKeyToksP_complete hk, he, hrecv, hrt]
  | _, _, _, .more toks toks2 mid rest eqt ct k v kvs hk he hv hc hi, n, hn => by
    have hck := keyToksP_consumes hk
    have hcv := valToks_consumes hv
    have hci := inlToks_consumes hi
    cases n with
    | zero => exfalso; simp only [List.length_cons] at hck hcv; omega
    | succ m =>
      have hrecv := valToks_complete hv m
        (by simp only [List.length_cons] at hn hck ⊢; omega)
      have hreci := inlToks_complete hi m
        (by simp only [List.length_cons] at hn hck hcv; omega)
      simp [parseInlineKVs, parseKeyToksP_complete hk, he, hrecv, hc, hreci]
end

mutual
theorem parseValueToks_sound :
    ∀ (n : Nat) (toks : List Tok) (v : Value) (rest : List Tok),
      parseValueToks n toks = .ok (v, rest) → ValToks toks v rest
  | 0, toks, v, rest, h => by simp [parseValueToks] at h
  | n + 1, [], v, rest, h => by simp [parseValueToks] at h
  | n + 1, t :: rest0, v, rest, h => by
    by_cases h1 : isScalarKind t.kind = true
    · simp [parseValueToks, h1] at h
      obtain ⟨hv, hr⟩ := h
      subst hr
      subst hv
      exact .scalar t rest0 h1
    · by_cases h2 : t.kind = .lTable
      · simp [parseValueToks, isScalarKind, h1, h2] at h
        cases hr : parseArrayItems n rest0 with
        | error e => rw [hr] at h; simp at h
        | ok p =>
          obtain ⟨its, rest2⟩ := p
          rw [hr] at h
          simp at h
          obtain ⟨hv, hr2⟩ := h
          subst hr2
          subst hv
          exact .array _ _ _ _ h2 (parseArrayItems_sound n rest0 its _ hr)
      · by_cases h3 : t.kind = .lInline
        · cases rest0 with
          | nil => simp [parseValueToks, isScalarKind, h1, h2, h3] at h
          | cons t2 rest2 =>
            by_cases h4 : t2.kind = .rInline
            · simp [parseValueToks, isScalarKind, h1, h2, h3, h4] at h
              obtain ⟨hv, hr⟩ := h
              subst hr
              subst hv
              exact .inlineEmpty t t2 _ h3 h4
            · simp [parseValueToks, isScalarKind, h1, h2, h3, h4] at h
              cases hr : parseInlineKVs n (t2 :: rest2) with
              | error e => rw [hr] at h; simp at h
              | ok p =>
                obtain ⟨kvs, rest3⟩ := p
                rw [hr] at h
                simp at h
                obtain ⟨hv, hr3⟩ := h
                subst hr3
                subst hv
                exact .inlineTab _ _ _ _ h3
                  (parseInlineKVs_sound n (t2 :: rest2) kvs _ hr)
        · simp [parseValueToks, h1, h2, h3] at h

theorem parseArrayItems_sound :
    ∀ (n : Nat) (toks : List Tok) (its : List ArrayItem) (rest : List Tok),
      parseArrayItems n toks = .ok (its, rest) → ArrToks toks its rest
  | 0, toks, its, rest, h => by simp [parseArrayItems] at h
  | n + 1, [], its, rest, h => by simp [parseArrayItems] at h
  | n + 1, t :: rest0, its, rest, h => by
    by_cases h1 : t.kind = .rTable
    · simp [parseArrayItems, h1] at h
      obtain ⟨hv, hr⟩ := h
      subst hr
      subst hv
      exact .close t _ h1
    · by_cases h2 : t.kind = .newline
      · simp [parseArrayItems, h1, h2] at h
        exact .skip t rest0 _ _ (Or.inl h2)
          (parseArrayItems_sound n rest0 its rest h)
      · by_cases h2b : t.kind = .comma
        · simp [parseArrayItems, h1, h2, h2b] at h
          exact .skip t rest0 _ _ (Or.inr h2b)
            (parseArrayItems_sound n rest0 its rest h)
        · by_cases h3 : t.kind = .comment
          · simp [parseArrayItems, h1, h2, h2b, h3] at h
            cases hr : parseArrayItems n rest0 with
            | error e => rw [hr] at h; simp at h
            | ok p =>
              obtain ⟨its2, rest2⟩ := p
              rw [hr] at h
              simp at h
              obtain ⟨hv, hr2⟩ := h
              subst hr2
              subst hv
              exact .comm t rest0 _ _ h3
                (parseArrayItems_sound n rest0 its2 _ hr)
          · simp [parseArrayItems, h1, h2, h2b, h3] at h
            cases hrv : parseValueToks n (t :: rest0) with
            | error e => rw [hrv] at h; simp at h
            | ok p =>
              obtain ⟨v0, mid⟩ := p
              rw [hrv] at h
              simp at h
              cases hra : parseArrayItems n mid with
              | error e => rw [hra] at h; simp at h
              | ok q =>
                obtain ⟨its2, rest2⟩ := q
                rw [hra] at h
                simp at h
                obtain ⟨hv, hr2⟩ := h
                subst hr2
                subst hv
                exact .val (t :: rest0) mid _ v0 _
                  (parseValueToks_sound n (t :: rest0) v0 mid hrv)
                  (parseArrayItems_sound n mid its2 _ hra)

theorem parseInlineKVs_sound :
    ∀ (n : Nat) (toks : List Tok) (kvs : List KeyValue) (rest : List Tok),
      parseInlineKVs n toks = .ok (kvs, rest) → InlToks toks kvs rest
  | 0, toks, kvs, rest, h => by simp [parseInlineKVs] at h
  | n + 1, toks, kvs, rest, h => by
    cases hk : parseKeyToks toks with
    | error e => simp [parseInlineKVs, hk] at h
    | ok p =>
      obtain ⟨k, rest1⟩ := p
      simp only [parseInlineKVs] at h
      rw [hk] at h
      cases rest1 with
      | nil => simp at h
      | cons eqt rest2 =>
        by_cases he : eqt.kind = .equal
        · simp [he] at h
          cases hrv : parseValueToks n rest2 with
          | error e => rw [hrv] at h; simp at h
          | ok q =>
            obtain ⟨v0, rest3⟩ := q
            rw [hrv] at h
            simp at h
            cases rest3 with
            | nil => simp at h
            | cons ct rest4 =>
              by_cases hc : ct.kind = .comma
              · simp [hc] at h
                cases hri : parseInlineKVs n rest4 with
                | error e => rw [hri] at h; simp at h
                | ok r =>
                  obtain ⟨kvs2, rest5⟩ := r
                  rw [hri] at h
                  simp at h
                  obtain ⟨hv, hr5⟩ := h
                  subst hr5
                  subst hv
                  exact .more toks rest2 rest4 _ eqt ct k v0 kvs2
                    (parseKeyToksP_sound hk) he
                    (parseValueToks_sound n rest2 v0 (ct :: rest4) hrv) hc
                    (parseInlineKVs_sound n rest4 kvs2 _ hri)
              · by_cases hri2 : ct.kind = .rInline
                · simp [hc, hri2] at h
                  obtain ⟨hv, hr4⟩ := h
                  subst hr4
                  subst hv
                  exact .last toks rest2 _ eqt ct k v0
                    (parseKeyToksP_sound hk) he
                    (parseValueToks_sound n rest2 v0 (ct :: rest4) hrv) hri2
                · simp [hc, hri2] at h
        · simp [he] at h
end

/-- C7: `ParseKey` errors whenever its input does not spell exactly one
key — on empty/blank input, a leading dot, trailing extra tokens, or a
comment in place of a key — and succeeds exactly when the token stream
spells one dotted key (`KeyToks`); `ParseValue` succeeds exactly when the
token stream spells exactly one value (`ValToks`) followed by nothing, by
one comment (stored as the Value Trailer), or by one newline, and
therefore errors whenever any further non-trivial input remains after the
value and optional comment. -/
theorem parse_single_strict :
    isErr (ParseKey "") = true
    ∧ isErr (ParseKey "  ") = true
    ∧ isErr (ParseKey ".garbage") = true
    ∧ isErr (ParseKey "extra stuff") = true
    ∧ isErr (ParseKey "#nope") = true
    ∧ ParseKey " a . \"b.c d\" . e" = .ok ["a", "b.c d", "e"]
    ∧ (∀ (s : String) (k : Key), ParseKey s = .ok k ↔
        ∃ toks, scanTop s = .ok toks ∧ KeyToks toks k)
    ∧ ParseValue "17 # wilkommen\n"
        = .ok (.mk "# wilkommen" (.token true "Integer" "17"))
    ∧ ParseValue "  false   " = .ok (.mk "" (.token true "Word" "false"))
    ∧ isErr (ParseValue "3 4") = true
    ∧ isErr (ParseValue "3 # hi\n4") = true
    ∧ ParseValue "[0,\n1,\n2\n] # bienvenue\n"
        = .ok (.mk "# bienvenue" (.array
            [.value (.mk "" (.token true "Integer" "0")),
             .value (.mk "" (.token true "Integer" "1")),
             .value (.mk "" (.token true "Integer" "2"))]))
    ∧ ParseValue "\x7b  \x7d # welcome" = .ok (.mk "# welcome" (.inline []))
    ∧ (∀ (s : String) (v : Value), ParseValue s = .ok v ↔
        ∃ toks v0 rest, scanTop s = .ok toks ∧ ValToks toks v0 rest ∧
          ((rest = [] ∧ v = v0)
            ∨ (∃ ct : Tok, ct.kind = .comment ∧ rest = [ct] ∧ v = .mk ct.text v0.x)
            ∨ (∃ nt : Tok, nt.kind = .newline ∧ rest = [nt] ∧ v = v0))) := by
  refine ⟨by rfl, by rfl, by rfl, by rfl, by rfl, by rfl, ?_, by rfl, by rfl,
    by rfl, by rfl, by rfl, by rfl, ?_⟩
  · intro s k
    constructor
    · intro h
      unfold ParseKey at h
      split at h
      · exact Except.noConfusion h
      · exact Except.noConfusion h
      · rename_i t ts heq
        split at h
        · exact Except.noConfusion h
        · rename_i k2 hp
          injection h with hk
          subst hk
          exact ⟨t :: ts, heq, parseKeyToks_sound hp⟩
        · exact Except.noConfusion h
    · rintro ⟨toks, hs, hkt⟩
      have hc := parseKeyToks_complete hkt
      have hne : ∃ t ts, toks = t :: ts := by
        cases hkt with
        | single t f _ => exact ⟨t, [], rfl⟩
        | dotted t dt f ts0 k0 _ _ _ => exact ⟨t, dt :: ts0, rfl⟩
      obtain ⟨t, ts, rfl⟩ := hne
      unfold ParseKey
      rw [hs]
      simp [hc]
  · intro s v
    constructor
    · intro h
      unfold ParseValue at h
      split at h
      · exact Except.noConfusion h
      · exact Except.noConfusion h
      · rename_i t ts heq
        cases hp : parseValueToks (2 * (t :: ts).length + 2) (t :: ts) with
        | error e => rw [hp] at h; exact Except.noConfusion h
        | ok p =>
          obtain ⟨v0, rest⟩ := p
          rw [hp] at h
          have hsnd := parseValueToks_sound _ _ _ _ hp
          cases rest with
          | nil =>
            simp at h
            exact ⟨t :: ts, v0, [], heq, hsnd, Or.inl ⟨rfl, h.symm⟩⟩
          | cons t2 rest2 =>
            by_cases hcm : t2.kind = .comment
            · cases rest2 with
              | nil =>
                simp [hcm] at h
                exact ⟨t :: ts, v0, [t2], heq, hsnd,
                  Or.inr (Or.inl ⟨t2, hcm, rfl, h.symm⟩)⟩
              | cons a b => simp [hcm] at h
            · by_cases hnl : t2.kind = .newline
              · cases rest2 with
                | nil =>
                  simp [hcm, hnl] at h
                  exact ⟨t :: ts, v0, [t2], heq, hsnd,
                    Or.inr (Or.inr ⟨t2, hnl, rfl, h.symm⟩)⟩
                | cons a b => simp [hcm, hnl] at h
              · simp [hcm, hnl] at h
    · rintro ⟨toks, v0, rest, hs, hvt, hcase⟩
      obtain ⟨t, ts, heq, hhd⟩ := valToks_head hvt
      subst heq
      have hcmp := valToks_complete hvt (2 * (t :: ts).length + 2) (by omega)
      simp only [List.length_cons] at hcmp
      unfold ParseValue
      rw [hs]
      rcases hcase with ⟨hr, hv⟩ | ⟨ct, hck, hr, hv⟩ | ⟨nt, hnk, hr, hv⟩
      · subst hr; subst hv; simp [hcmp]
      · subst hr; subst hv; simp [hcmp, hck]
      · subst hr; subst hv; simp [hcmp, hnk]

end Tomledit
